import Mathlib

/-!
Verification of the eyconf typed-configuration library core
(schema derivation, record codec, merge/update engine, extra-field overlay).

The Python source is shallowly embedded: dataclass types become a `RecordDef`
environment, dataclass instances become `Value` trees, plain dicts (the data
documents fed to the library) become `Data` trees, and the JSON-schema
documents emitted by `to_json_schema` become `JSchema` trees.  Python
exceptions become `Except`/`Option Err` results; in-place mutation of a
record instance is modelled by threading the new `Value` through the result.
-/

namespace Eyconf

/-- Literal values as they appear in `typing.Literal[...]` sets.
`lother` stands for a literal of an unsupported runtime type
(for example `bytes`), which `primitive_type_mapping` does not know. -/
inductive Lit where
  | lint (n : Int)
  | lstr (s : String)
  | lbool (b : Bool)
  | lnull
  | lother (tag : String)
deriving DecidableEq, Repr

/-- Boolean equality on literals. -/
def Lit.beq : Lit → Lit → Bool
  | .lint a, .lint b => a == b
  | .lstr a, .lstr b => a == b
  | .lbool a, .lbool b => a == b
  | .lnull, .lnull => true
  | .lother a, .lother b => a == b
  | _, _ => false

/-- Resolved field types, the shared type-shape vocabulary
(output of the Type Introspector).  `tunion` covers both PEP-604 unions and
`Optional` (a union containing `tnone`); `tdict` is a string-keyed mapping;
`trec` is a reference to a record (dataclass) type by name, names standing
for Python type identities. -/
inductive Ty where
  | tint
  | tstr
  | tbool
  | tnone
  | tany
  | tlit (vals : List Lit)
  | tunion (args : List Ty)
  | tlist (elem : Ty)
  | tdict (val : Ty)
  | trec (name : String)

/-- Runtime values held by record instances (dataclass trees).
`vrecord` keeps the type name and the ordered field assignments of the
instance; entries beyond the declared fields model dynamically added
attributes. -/
inductive Value where
  | vint (n : Int)
  | vstr (s : String)
  | vbool (b : Bool)
  | vnull
  | vrecord (tyName : String) (flds : List (String × Value))
  | vlist (elems : List Value)
  | vdict (entries : List (String × Value))

/-- Plain data documents: Python dicts/lists/primitives as fed to
`dataclass_from_dict`, `update`, and the validator. -/
inductive Data where
  | dnull
  | dint (n : Int)
  | dstr (s : String)
  | dbool (b : Bool)
  | dlist (items : List Data)
  | dmap (entries : List (String × Data))

/-- One dataclass field: its attribute name, the optional alias recorded in
`field(metadata=dict(alias=...))`, its resolved type, and its default value
when the declaration has one (`none` marks a required field). -/
structure FieldDef where
  name : String
  aliasName : Option String
  ty : Ty
  defaultVal : Option Value

/-- One dataclass type: its ordered fields and whether the
`@allow_additional` decorator set the mangled `__allow_additional` flag. -/
structure RecordDef where
  fields : List FieldDef
  allowAdditional : Bool

/-- The set of dataclass types of a program, keyed by type name
(standing for Python type identity). -/
abbrev Env : Type := List (String × RecordDef)

/-- Look up a record definition by name (first binding wins, like Python's
single type object per name). -/
def lookupRec (env : Env) (n : String) : Option RecordDef :=
  match env with
  | [] => none
  | (k, d) :: rest => if k = n then some d else lookupRec rest n

/-- Fields of a record type, empty when the name is unknown. -/
def fieldsOf (env : Env) (n : String) : List FieldDef :=
  match lookupRec env n with
  | some d => d.fields
  | none => []

/-- Association-list lookup used for record instance attributes and data
maps (Python attribute/key access). -/
def alookup {α : Type} (l : List (String × α)) (k : String) : Option α :=
  match l with
  | [] => none
  | (k', v) :: rest => if k' = k then some v else alookup rest k

/-- Replace the binding of `k` (first occurrence) or append it, modelling
`setattr` on a dataclass instance / `d[k] = v` on a dict. -/
def aset {α : Type} (l : List (String × α)) (k : String) (v : α) :
    List (String × α) :=
  match l with
  | [] => [(k, v)]
  | (k', v') :: rest =>
    if k' = k then (k', v) :: rest else (k', v') :: aset rest k v

/-- Python exceptions raised by the embedded operations. -/
inductive Err where
  | valueError (msg : String)
  | typeError (msg : String)
  | keyError (k : String)
  | attrError (path : String)
  | configErr
  | schemaErr
  | recursionErr
deriving DecidableEq, Repr

/-- A looked-up association value is smaller than the whole list. -/
theorem sizeOf_alookup {α : Type} [SizeOf α] :
    ∀ {l : List (String × α)} {k : String} {v : α},
      alookup l k = some v → sizeOf v < sizeOf l := by
  intro l
  induction l with
  | nil => intro k v h; simp [alookup] at h
  | cons hd tl ih =>
    intro k v h
    simp only [alookup] at h
    by_cases hk : hd.1 = k
    · simp [hk] at h
      subst h
      cases hd with
      | mk a b => simp; omega
    · simp [hk] at h
      have := ih h
      cases hd with
      | mk a b => simp; omega

/-- The `aliased_fields` table of `_dataclass_from_dict_inner`: maps an alias
to its field name.  Python builds a dict in field order, so a later field
with the same alias overwrites an earlier one (last occurrence wins). -/
def aliasToName (fs : List FieldDef) (k : String) : Option String :=
  match fs with
  | [] => none
  | f :: rest =>
    match aliasToName rest k with
    | some n => some n
    | none => if f.aliasName = some k then some f.name else none

/-- Whether `k` is a declared field name (`field_types_to_use.keys()`). -/
def isFieldName (fs : List FieldDef) (k : String) : Bool :=
  fs.any (fun f => f.name = k)

/-- Declared type of field `k` (`field_types_to_use[k]`). -/
def fieldTyAnn (fs : List FieldDef) (k : String) : Option Ty :=
  match fs with
  | [] => none
  | f :: rest => if f.name = k then some f.ty else fieldTyAnn rest k

/-- Key emitted for a field by the alias-aware encoder and the schema
compiler: the alias when declared, else the field name. -/
def emitKey (f : FieldDef) : String :=
  match f.aliasName with
  | some a => a
  | none => f.name

mutual

/-- Python objects passed through untouched by the "primitive" fallthrough
of `_dataclass_from_dict_inner` (a data document viewed as a value). -/
def dataToValue : Data → Value
  | .dnull => .vnull
  | .dint n => .vint n
  | .dstr s => .vstr s
  | .dbool b => .vbool b
  | .dlist items => .vlist (dataToValueList items)
  | .dmap es => .vdict (dataToValuePairs es)

/-- Elementwise `dataToValue`. -/
def dataToValueList : List Data → List Value
  | [] => []
  | d :: rest => dataToValue d :: dataToValueList rest

/-- Valuewise `dataToValue` on map entries. -/
def dataToValuePairs : List (String × Data) → List (String × Value)
  | [] => []
  | (k, d) :: rest => (k, dataToValue d) :: dataToValuePairs rest

end

/-- Whether an exception is caught by the union loop of
`_dataclass_from_dict_inner` (`except (ValueError, TypeError, KeyError)`). -/
def Err.unionCatchable : Err → Bool
  | .valueError _ => true
  | .typeError _ => true
  | .keyError _ => true
  | _ => false

/-- Constructor call `target_type(**found_fields)` of
`_dataclass_from_dict_inner`: each declared field takes its value from
`found_fields` or its default; a missing required field makes the
constructor raise `TypeError`, which the surrounding block re-raises as
`ValueError`.  The resulting instance lists fields in declaration order. -/
def constructRecord (tyName : String) (fs : List FieldDef)
    (found : List (String × Value)) : Except Err Value :=
  match go fs with
  | some flds => .ok (.vrecord tyName flds)
  | none => .error (.valueError ("failed to create " ++ tyName))
where
  go : List FieldDef → Option (List (String × Value))
  | [] => some []
  | f :: rest =>
    match alookup found f.name, go rest with
    | some v, some tl => some ((f.name, v) :: tl)
    | none, some tl =>
      match f.defaultVal with
      | some d => some ((f.name, d) :: tl)
      | none => none
    | _, none => none

/-- Test for the absence marker `NoneType` among union alternatives. -/
def Ty.isNone : Ty → Bool
  | .tnone => true
  | _ => false

/-- Attach collected additional fields onto a freshly built instance with
`setattr` (the `allow_additional` path of `_dataclass_from_dict_inner`). -/
def setExtras (res : Value) (additional : List (String × Data)) : Value :=
  match res with
  | .vrecord tn flds =>
    .vrecord tn (additional.foldl (fun acc kv => aset acc kv.1 (dataToValue kv.2)) flds)
  | other => other

mutual

/-- The body of `_dataclass_from_dict_inner`, faithful to its branch order:
union handling first (`None` short-circuit, then alternatives in
declaration order, exhaustion returning `None`, i.e. `vnull`, without an
exception), then dict-data-into-dataclass, then dict-data-into-mapping,
then list data, then the primitive passthrough.  The `fuel` argument
models the Python call stack (every call consumes one unit; exhaustion is
`RecursionError`, which no `except` clause of this code catches). -/
def decodeD (env : Env) (allowAdd : Bool) : Nat → Ty → Data → Except Err Value
  | 0, _, _ => .error .recursionErr
  | fuel + 1, .tunion args, .dnull =>
    if args.any Ty.isNone then .ok .vnull
    else decodeAlts env allowAdd fuel args .dnull
  | fuel + 1, .tunion args, data => decodeAlts env allowAdd fuel args data
  | fuel + 1, .trec n, .dmap entries =>
    (match lookupRec env n with
     | some rd => do
        let (found, additional) ← decodeFields env allowAdd fuel rd.fields entries [] []
        let res ← constructRecord n rd.fields found
        if allowAdd then
          .ok (setExtras res additional)
        else if additional.isEmpty then
          .ok res
        else
          .error (.valueError ("found additional fields in " ++ n))
     | none => .ok (dataToValue (.dmap entries)))
  | fuel + 1, .tdict valTy, .dmap entries => do
    let vs ← decodeDictVals env allowAdd fuel valTy entries
    .ok (.vdict vs)
  | fuel + 1, .tlist elemTy, .dlist items => do
    let vs ← decodeList env allowAdd fuel elemTy items
    .ok (.vlist vs)
  | _ + 1, _, data => .ok (dataToValue data)

/-- The union alternative loop: try each non-`None` alternative in order,
return the first result whose decoding does not raise a catchable
exception; when all alternatives fail, return `None` (`vnull`). -/
def decodeAlts (env : Env) (allowAdd : Bool) : Nat → List Ty → Data → Except Err Value
  | 0, _, _ => .error .recursionErr
  | _ + 1, [], _ => .ok .vnull
  | fuel + 1, arg :: rest, data =>
    if arg.isNone then decodeAlts env allowAdd fuel rest data
    else
      match decodeD env allowAdd fuel arg data with
      | .ok v => .ok v
      | .error e =>
        if e.unionCatchable then decodeAlts env allowAdd fuel rest data
        else .error e

/-- The key loop of the dataclass branch: resolve each data key through the
alias table (aliases take priority), else match a declared field name, else
collect it as an additional field.  `found` and `additional` accumulate in
data order, modelling the dict insertions of the source loop (a later
entry resolving to the same field name overwrites the earlier one).
Decoding errors of field values propagate. -/
def decodeFields (env : Env) (allowAdd : Bool) : Nat → List FieldDef →
    List (String × Data) → List (String × Value) → List (String × Data) →
    Except Err (List (String × Value) × List (String × Data))
  | 0, _, _, _, _ => .error .recursionErr
  | _ + 1, _, [], found, additional => .ok (found, additional)
  | fuel + 1, fs, (k, v) :: rest, found, additional =>
    match aliasToName fs k with
    | some name =>
      match fieldTyAnn fs name with
      | some ty => do
        let dv ← decodeD env allowAdd fuel ty v
        decodeFields env allowAdd fuel fs rest (aset found name dv) additional
      | none => .error (.keyError name)
    | none =>
      if isFieldName fs k then
        match fieldTyAnn fs k with
        | some ty => do
          let dv ← decodeD env allowAdd fuel ty v
          decodeFields env allowAdd fuel fs rest (aset found k dv) additional
        | none => .error (.keyError k)
      else
        decodeFields env allowAdd fuel fs rest found (additional ++ [(k, v)])

/-- Elementwise decoding of a list (`[inner(elem_type, item) for item in data]`). -/
def decodeList (env : Env) (allowAdd : Bool) : Nat → Ty → List Data →
    Except Err (List Value)
  | 0, _, _ => .error .recursionErr
  | _ + 1, _, [] => .ok []
  | fuel + 1, elemTy, d :: rest => do
    let v ← decodeD env allowAdd fuel elemTy d
    let vs ← decodeList env allowAdd fuel elemTy rest
    .ok (v :: vs)

/-- Valuewise decoding of a string-keyed mapping (keys are strings and pass
through unchanged, values are decoded against the value type). -/
def decodeDictVals (env : Env) (allowAdd : Bool) : Nat → Ty →
    List (String × Data) → Except Err (List (String × Value))
  | 0, _, _ => .error .recursionErr
  | _ + 1, _, [] => .ok []
  | fuel + 1, valTy, (k, d) :: rest => do
    let v ← decodeD env allowAdd fuel valTy d
    let vs ← decodeDictVals env allowAdd fuel valTy rest
    .ok ((k, v) :: vs)

end

/-- The `dataclass_from_dict` wrapper: raise `ValueError` when the inner
decoder produced `None` (Python cannot tell a legitimate `None` result from
union exhaustion, so both make the wrapper raise). -/
def dataclassFromDict (env : Env) (fuel : Nat) (ty : Ty) (data : Data)
    (allowAdd : Bool := false) : Except Err Value :=
  match decodeD env allowAdd fuel ty data with
  | .ok .vnull => .error (.valueError "could not parse data")
  | .ok v => .ok v
  | .error e => .error e

/-- Arrange the encoded entries of a record instance the way
`_asdict_inner` emits them with the alias dict factory: declared fields in
declaration order under their alias-or-name (`getattr` reads the instance
slot, here the entry of the same key), followed by dynamically added
attributes that are not declared fields and not underscore-prefixed
(`include_attributes=True`, the default of `asdict_with_aliases`). -/
def arrangeRecord (fs : List FieldDef) (encoded : List (String × Data)) :
    List (String × Data) :=
  fs.filterMap (fun f => (alookup encoded f.name).map (fun d => (emitKey f, d))) ++
    encoded.filter (fun kv => !(isFieldName fs kv.1) && !(kv.1.startsWith "_"))

mutual

/-- The encoder `asdict_with_aliases` / `_asdict_inner`: primitives pass
through, records become maps keyed by alias-or-name in declaration order
plus trailing dynamic attributes, lists and dicts recurse. -/
def encodeVal (env : Env) : Value → Data
  | .vint n => .dint n
  | .vstr s => .dstr s
  | .vbool b => .dbool b
  | .vnull => .dnull
  | .vrecord tn flds => .dmap (arrangeRecord (fieldsOf env tn) (encodeEntries env flds))
  | .vlist es => .dlist (encodeList env es)
  | .vdict es => .dmap (encodeEntries' env es)

/-- Entrywise encoding of record-instance attributes (keys unchanged). -/
def encodeEntries (env : Env) : List (String × Value) → List (String × Data)
  | [] => []
  | (k, v) :: rest => (k, encodeVal env v) :: encodeEntries env rest

/-- Entrywise encoding of plain dict values (keys unchanged). -/
def encodeEntries' (env : Env) : List (String × Value) → List (String × Data)
  | [] => []
  | (k, v) :: rest => (k, encodeVal env v) :: encodeEntries' env rest

/-- Elementwise encoding of list values. -/
def encodeList (env : Env) : List Value → List Data
  | [] => []
  | v :: rest => encodeVal env v :: encodeList env rest

end

/-- The `type` keyword of a schema node: either a single type name
(`"type": "integer"`) or a list of names (`"type": ["string", "null"]`);
the two shapes are widened differently by `allow_none_in_schema`. -/
inductive JTypeSpec where
  | single (t : String)
  | multi (ts : List String)
deriving DecidableEq, Repr

/-- A JSON-schema document restricted to the keywords the compiler emits:
`type`, `enum`, `anyOf`, `items`, `properties`, `patternProperties` (always
with the single pattern matching every key), `required`, and
`additionalProperties`.  `none` means the keyword is absent. -/
inductive JSchema where
  | mk (jtype : Option JTypeSpec) (jenum : Option (List Lit))
      (janyOf : Option (List JSchema)) (jitems : Option JSchema)
      (jprops : Option (List (String × JSchema))) (jpatProps : Option JSchema)
      (jrequired : List String) (jaddProps : Option Bool)

/-- Scalar schema node `dict(type=t)`. -/
def scalarSchema (t : String) : JSchema :=
  .mk (some (.single t)) none none none none none [] none

/-- Widen one `type` keyword to also accept `null`
(`allow_none_in_schema`, inner branch). -/
def allowNoneType : JTypeSpec → JTypeSpec
  | .single t => .multi [t, "null"]
  | .multi ts => if ts.contains "null" then .multi ts else .multi (ts ++ ["null"])

mutual

/-- The recursive widening `allow_none_in_schema`: every `type` keyword in
the document gains `null`, recursing through every nested dict and list
value (properties, items, anyOf branches, patternProperties).  The Python
function mutates the schema dict in place and returns it; callers that
model the mutation thread the returned document. -/
def allowNone : JSchema → JSchema
  | .mk t e a i p pp r ap =>
    .mk (allowNoneOptType t) e (allowNoneOptList a) (allowNoneOpt i)
      (allowNoneOptProps p) (allowNoneOpt pp) r ap

/-- Widen an optional `type` keyword. -/
def allowNoneOptType : Option JTypeSpec → Option JTypeSpec
  | none => none
  | some ts => some (allowNoneType ts)

/-- Widen an optional subschema. -/
def allowNoneOpt : Option JSchema → Option JSchema
  | none => none
  | some s => some (allowNone s)

/-- Widen an optional list of subschemas (anyOf branches). -/
def allowNoneOptList : Option (List JSchema) → Option (List JSchema)
  | none => none
  | some l => some (allowNoneList l)

/-- Widen each subschema of a list. -/
def allowNoneList : List JSchema → List JSchema
  | [] => []
  | s :: rest => allowNone s :: allowNoneList rest

/-- Widen an optional properties table. -/
def allowNoneOptProps : Option (List (String × JSchema)) → Option (List (String × JSchema))
  | none => none
  | some l => some (allowNoneProps l)

/-- Widen each property subschema. -/
def allowNoneProps : List (String × JSchema) → List (String × JSchema)
  | [] => []
  | (k, s) :: rest => (k, allowNone s) :: allowNoneProps rest

end

/-- JSON type name of a data document (no floats are modelled, so
`number` appears only as a schema-side name). -/
def dataTypeName : Data → String
  | .dnull => "null"
  | .dint _ => "integer"
  | .dstr _ => "string"
  | .dbool _ => "boolean"
  | .dlist _ => "array"
  | .dmap _ => "object"

/-- Whether a schema type name admits a data document
(JSON Schema: `number` also admits integers). -/
def jsonTypeMatches (t : String) (d : Data) : Bool :=
  t == dataTypeName d || (t == "number" && dataTypeName d == "integer")

/-- The `type` keyword check. -/
def typeSpecOk (ts : JTypeSpec) (d : Data) : Bool :=
  match ts with
  | .single t => jsonTypeMatches t d
  | .multi l => l.any (fun t => jsonTypeMatches t d)

/-- Whether an `enum` member equals a data document. -/
def litMatchesData (l : Lit) (d : Data) : Bool :=
  match l, d with
  | .lint a, .dint b => a == b
  | .lstr a, .dstr b => a == b
  | .lbool a, .dbool b => a == b
  | .lnull, .dnull => true
  | _, _ => false

/-- Whether a data key escapes the `additionalProperties: false` check:
it is listed in `properties` or matched by `patternProperties` (the
compiler's only pattern matches every key). -/
def keyCovered (props : Option (List (String × JSchema)))
    (patProps : Option JSchema) (k : String) : Bool :=
  (match props with
   | some l => l.any (fun kv => kv.1 == k)
   | none => false) ||
  patProps.isSome

mutual

/-- Modelled from the spec: the external structural validator
(`jsonschema.Draft202012Validator`), an off-the-shelf JSON-Schema-draft
validator that, given a schema document and a data document, reports
whether there are violations.  Keywords are conjunctive; `items`,
`properties`, `patternProperties`, `required` and `additionalProperties`
constrain only data of the matching container kind, as in the draft.  The
`fuel` argument bounds the recursion depth; callers pass a bound that the
document sizes can never exhaust, making the model total. -/
def validateNode : Nat → JSchema → Data → Bool
  | 0, _, _ => false
  | fuel + 1, .mk t e a i p pp r ap, d =>
    (match t with
     | none => true
     | some ts => typeSpecOk ts d) &&
    (match e with
     | none => true
     | some lits => lits.any (fun l => litMatchesData l d)) &&
    (match a with
     | none => true
     | some branches => anyBranchOk fuel branches d) &&
    (match d, i with
     | .dlist items, some s => allItemsOk fuel s items
     | _, _ => true) &&
    (match d, p with
     | .dmap es, some props => propsOk fuel props es
     | _, _ => true) &&
    (match d, pp with
     | .dmap es, some s => allValsOk fuel s es
     | _, _ => true) &&
    (match d with
     | .dmap es => r.all (fun k => es.any (fun kv => kv.1 == k))
     | _ => true) &&
    (match d, ap with
     | .dmap es, some false => es.all (fun kv => keyCovered p pp kv.1)
     | _, _ => true)

/-- The `anyOf` keyword: at least one branch validates. -/
def anyBranchOk : Nat → List JSchema → Data → Bool
  | 0, _, _ => false
  | _ + 1, [], _ => false
  | fuel + 1, s :: rest, d => validateNode fuel s d || anyBranchOk fuel rest d

/-- The `items` keyword: every element validates. -/
def allItemsOk : Nat → JSchema → List Data → Bool
  | 0, _, _ => false
  | _ + 1, _, [] => true
  | fuel + 1, s, d :: rest => validateNode fuel s d && allItemsOk fuel s rest

/-- The `properties` keyword: for every listed property present in the
data, its value validates against the property subschema. -/
def propsOk : Nat → List (String × JSchema) → List (String × Data) → Bool
  | 0, _, _ => false
  | _ + 1, [], _ => true
  | fuel + 1, (k, s) :: rest, es =>
    (match alookup es k with
     | some d => validateNode fuel s d
     | none => true) &&
    propsOk fuel rest es

/-- The `patternProperties` keyword with the match-all pattern: every
value validates against the value subschema. -/
def allValsOk : Nat → JSchema → List (String × Data) → Bool
  | 0, _, _ => false
  | _ + 1, _, [] => true
  | fuel + 1, s, (_, d) :: rest => validateNode fuel s d && allValsOk fuel s rest

end

/-- The `simpleTypes` enumeration of the JSON-Schema draft meta-schema. -/
def simpleTypes : List String :=
  ["array", "boolean", "integer", "null", "number", "object", "string"]

/-- Meta-schema constraint on one `type` keyword: a single known name, or a
nonempty array of known names (the meta-schema requires `minItems: 1`). -/
def typeSpecWellFormed : JTypeSpec → Bool
  | .single t => simpleTypes.contains t
  | .multi ts => !ts.isEmpty && ts.all (fun t => simpleTypes.contains t)

mutual

/-- Modelled from the spec: the post-build schema-of-schema check
(`Draft202012Validator.check_schema`), the external validator applied to
its own meta-schema.  Of the meta-schema only the constraint relevant to
the emitted subset is modelled: every `type` keyword must hold a known
type name or a nonempty array of known type names, recursively through all
subschemas. -/
def schemaWellFormed : JSchema → Bool
  | .mk t _ a i p pp _ _ =>
    (match t with
     | none => true
     | some ts => typeSpecWellFormed ts) &&
    (match a with
     | none => true
     | some l => schemaListWellFormed l) &&
    (match i with
     | none => true
     | some s => schemaWellFormed s) &&
    (match p with
     | none => true
     | some l => schemaPropsWellFormed l) &&
    (match pp with
     | none => true
     | some s => schemaWellFormed s)

/-- Well-formedness of each branch of an `anyOf` list. -/
def schemaListWellFormed : List JSchema → Bool
  | [] => true
  | s :: rest => schemaWellFormed s && schemaListWellFormed rest

/-- Well-formedness of each property subschema. -/
def schemaPropsWellFormed : List (String × JSchema) → Bool
  | [] => true
  | (_, s) :: rest => schemaWellFormed s && schemaPropsWellFormed rest

end

/-- Schema type name of a literal's runtime type
(`primitive_type_mapping`); `none` for unsupported literal types. -/
def litPrimName : Lit → Option String
  | .lint _ => some "integer"
  | .lstr _ => some "string"
  | .lbool _ => some "boolean"
  | .lnull => some "null"
  | .lother _ => none

/-- The `__infer_type_from_values` accumulation: type names of the literal
values in order of first occurrence; raise `ValueError` for a literal whose
runtime type `primitive_type_mapping` does not know. -/
def inferLitNames : List Lit → List String → Except Err (List String)
  | [], acc => .ok acc
  | l :: rest, acc =>
    match litPrimName l with
    | some n => inferLitNames rest (if acc.contains n then acc else acc ++ [n])
    | none => .error (.valueError "unsupported literal type")

/-- The result shape of `__infer_type_from_values`: a single name when only
one runtime type occurs, else the list of names (the empty literal set
yields the empty list, which only the schema self-check later rejects). -/
def inferTypeFromValues (vals : List Lit) : Except Err JTypeSpec := do
  let names ← inferLitNames vals []
  match names with
  | [n] => .ok (.single n)
  | ns => .ok (.multi ns)

/-- The resolved type of a field is smaller than the whole field. -/
theorem FieldDef.sizeOf_ty_lt (f : FieldDef) : sizeOf f.ty < sizeOf f := by
  cases f
  simp
  omega

/-- A filtered list never has larger `sizeOf` than the original. -/
theorem sizeOf_filter_le {α : Type} [SizeOf α] (p : α → Bool) :
    ∀ l : List α, sizeOf (l.filter p) ≤ sizeOf l := by
  intro l
  induction l with
  | nil => simp
  | cons hd tl ih =>
    simp only [List.filter]
    cases p hd <;> simp <;> omega

mutual

/-- The compiler `to_json_schema`, with an explicit call-stack fuel:
Python's `functools.cache` does not memoize in-progress calls, so the
source recursion is plain call-stack recursion (unbounded on cyclic type
graphs; exhaustion is `RecursionError`).  Builds the object node with
`properties` keyed by alias-or-name, a `required` list (from the type
shape only, defaults are ignored), and `additionalProperties` from the
override parameter or the type's own mangled `__allow_additional` flag,
then applies the schema self-check. -/
def toJsonSchemaF (env : Env) (checkSchema : Bool) (allowAdd : Option Bool) :
    Nat → String → Except Err JSchema
  | 0, _ => .error .recursionErr
  | fuel + 1, n =>
    match lookupRec env n with
    | none => .error (.valueError ("unsupported type " ++ n))
    | some rd => do
      let (props, required) ← buildProps env allowAdd fuel rd.fields
      let root : JSchema := .mk (some (.single "object")) none none none
        (some props) none required
        (some (match allowAdd with
               | none => rd.allowAdditional
               | some b => b))
      if checkSchema && !schemaWellFormed root then .error .schemaErr
      else .ok root

/-- The field loop of `to_json_schema`: convert each field type, key the
property (and its `required` entry) by the alias when declared. -/
def buildProps (env : Env) (allowAdd : Option Bool) :
    Nat → List FieldDef → Except Err (List (String × JSchema) × List String)
  | 0, _ => .error .recursionErr
  | _ + 1, [] => .ok ([], [])
  | fuel + 1, f :: rest => do
    let (p, r) ← convertTy env allowAdd fuel f.ty
    let (props, reqs) ← buildProps env allowAdd fuel rest
    .ok ((emitKey f, p) :: props, if r then emitKey f :: reqs else reqs)

/-- The branch dispatch `__convert_type_to_schema`, in source order:
literals, unions (drop `NoneType` and mark not required; one remaining
alternative is emitted directly, several become `anyOf`), sequences,
nested records (recursing into `to_json_schema` with the same
`allow_additional` override and the self-check enabled), string-keyed
mappings via `patternProperties`, then primitives and `Any`.
Python's `set(get_args(...))` iterates in unspecified order and `typing`
already deduplicates union arguments; declaration order is used here. -/
def convertTy (env : Env) (allowAdd : Option Bool) :
    Nat → Ty → Except Err (JSchema × Bool)
  | 0, _ => .error .recursionErr
  | _ + 1, .tlit vals => do
    let ts ← inferTypeFromValues vals
    .ok (.mk (some ts) (some vals) none none none none [] none, true)
  | fuel + 1, .tunion args =>
    let isReq := !args.any Ty.isNone
    (match args.filter (fun t => !t.isNone) with
     | [] => .error (.keyError "pop from an empty set")
     | [t] => do
       let (s, _) ← convertTy env allowAdd fuel t
       .ok (s, isReq)
     | ts => do
       let branches ← convertTyList env allowAdd fuel ts
       .ok (.mk none none (some branches) none none none [] none, isReq))
  | fuel + 1, .tlist e => do
    let (s, _) ← convertTy env allowAdd fuel e
    .ok (.mk (some (.single "array")) none none (some s) none none [] none, true)
  | fuel + 1, .trec n => do
    let s ← toJsonSchemaF env true allowAdd fuel n
    .ok (s, true)
  | fuel + 1, .tdict v => do
    let (s, _) ← convertTy env allowAdd fuel v
    .ok (.mk (some (.single "object")) none none none none (some s) [] none, true)
  | _ + 1, .tint => .ok (scalarSchema "integer", true)
  | _ + 1, .tstr => .ok (scalarSchema "string", true)
  | _ + 1, .tbool => .ok (scalarSchema "boolean", true)
  | _ + 1, .tnone => .ok (scalarSchema "null", true)
  | _ + 1, .tany => .ok (.mk none none none none none none [] none, true)

/-- Branchwise conversion of the remaining union alternatives. -/
def convertTyList (env : Env) (allowAdd : Option Bool) :
    Nat → List Ty → Except Err (List JSchema)
  | 0, _ => .error .recursionErr
  | _ + 1, [] => .ok []
  | fuel + 1, t :: rest => do
    let (s, _) ← convertTy env allowAdd fuel t
    let ss ← convertTyList env allowAdd fuel rest
    .ok (s :: ss)

end

end Eyconf

namespace Eyconf

mutual

/-- Structural size of a schema document, used to compute a recursion
bound for the validator model. -/
def jschemaSize : JSchema → Nat
  | .mk _ _ a i p pp _ _ =>
    1 + jschemaSizeOptList a + jschemaSizeOpt i + jschemaSizeOptProps p +
      jschemaSizeOpt pp

/-- Size of an optional subschema. -/
def jschemaSizeOpt : Option JSchema → Nat
  | none => 0
  | some sc => 1 + jschemaSize sc

/-- Size of an optional subschema list. -/
def jschemaSizeOptList : Option (List JSchema) → Nat
  | none => 0
  | some l => 1 + jschemaSizeList l

/-- Size of a subschema list. -/
def jschemaSizeList : List JSchema → Nat
  | [] => 0
  | sc :: rest => 1 + jschemaSize sc + jschemaSizeList rest

/-- Size of an optional properties table. -/
def jschemaSizeOptProps : Option (List (String × JSchema)) → Nat
  | none => 0
  | some l => 1 + jschemaSizeProps l

/-- Size of a properties table. -/
def jschemaSizeProps : List (String × JSchema) → Nat
  | [] => 0
  | (_, sc) :: rest => 1 + jschemaSize sc + jschemaSizeProps rest

end

mutual

/-- Structural size of a data document. -/
def dataSize : Data → Nat
  | .dlist items => 1 + dataSizeList items
  | .dmap es => 1 + dataSizePairs es
  | _ => 1

/-- Size of a data list. -/
def dataSizeList : List Data → Nat
  | [] => 0
  | d :: rest => 1 + dataSize d + dataSizeList rest

/-- Size of data map entries. -/
def dataSizePairs : List (String × Data) → Nat
  | [] => 0
  | (_, d) :: rest => 1 + dataSize d + dataSizePairs rest

end

/-- The recursion bound handed to the validator model: larger than any
depth the two documents can drive it to. -/
def validatorFuel (schema : JSchema) (data : Data) : Nat :=
  jschemaSize schema + dataSize data + 1

/-- The `validate_json` routine: widen the schema in place with
`allow_none_in_schema` (the first component of the result is the mutated
schema document, which is the process-wide cached object itself), run the
external validator at a recursion bound the document sizes cannot
exhaust, and raise a `ConfigurationError` aggregate when any violation is
reported. -/
def validateJson (schema : JSchema) (data : Data) : JSchema × Option Err :=
  let widened := allowNone schema
  if validateNode (validatorFuel widened data) widened data then (widened, none)
  else (widened, some .configErr)

/-- Modelled from the spec: `dict_items_resolve_aliases(update_data, type)`
(called by `Config.update` but not present in the source tree) resolves
each patch key through the alias table of the current nesting level's type,
alias keys taking priority; unknown keys pass through unchanged. -/
def resolveKey (fs : List FieldDef) (k : String) : String :=
  match aliasToName fs k with
  | some n => n
  | none => k

/-- Python `hasattr(target, key)` on a record instance. -/
def hasAttrVal : Value → String → Bool
  | .vrecord _ flds, k => (alookup flds k).isSome
  | _, _ => false

/-- Python `getattr(target, key)` on a record instance. -/
def getAttrVal : Value → String → Option Value
  | .vrecord _ flds, k => alookup flds k
  | _, _ => none

/-- Python `setattr(target, key, v)` on a record instance. -/
def setAttrVal : Value → String → Value → Value
  | .vrecord tn flds, k, v => .vrecord tn (aset flds k v)
  | other, _, _ => other

/-- The two `_update_additional` implementations reachable from
`Config.update`.  `strict` is `Config._update_additional`, which raises
`AttributeError` naming the full dotted path.  `extraSig` is
`ConfigExtra._update_additional`: its parameter list
`(self, target, key, value, _current_path)` cannot be bound from the base
class call `self._update_additional(value, path=...)`, so in Python the
call itself raises `TypeError` before the method body runs. -/
inductive UpdatePolicy where
  | strict
  | extraSig

/-- The dotted path printed by `Config._update_additional`: the root
instance's type name followed by the attribute path. -/
def dottedPath (rootName : String) (parts : List String) : String :=
  rootName ++ String.join (parts.map (fun p => "." ++ p))

/-- The error raised for a non-schema field under the given policy. -/
def additionalFieldErr (policy : UpdatePolicy) (rootName : String)
    (parts : List String) : Err :=
  match policy with
  | .strict => .attrError (dottedPath rootName parts)
  | .extraSig => .typeError "update-additional call signature mismatch"

mutual

/-- The recursive helper `_update` of `Config.update`.  Entry checks mirror
the source: `get_type_hints_resolve_namespace(target_type)` raises unless
the annotation is a class (a record reference), and iterating
`dict_items_resolve_aliases(update_data, ...)` requires a mapping.  The
returned value is the (possibly partially) mutated target: mutation
performed before an error is raised is preserved, as with in-place
`setattr` in the source.  `fuel` models the Python call stack. -/
def updateRec (env : Env) (policy : UpdatePolicy) (rootName : String) :
    Nat → List String → Ty → Value → Data → Value × Option Err
  | 0, _, _, target, _ => (target, some .recursionErr)
  | fuel + 1, path, ty, target, patch =>
    match ty, patch with
    | .trec n, .dmap entries => updELoop env policy rootName fuel path n target entries
    | .trec _, _ => (target, some (.typeError "patch is not a mapping"))
    | _, _ => (target, some (.typeError "get_type_hints on a non-class annotation"))

/-- The key loop of `_update`, one patch entry at a time, each key resolved
against the current type's alias table.  Branches in source order:
a present attribute holding a record recurses (writing the mutated nested
instance back models in-place mutation); a present `None` attribute with a
mapping value is populated through `dataclass_from_dict`; any other
present attribute with a declared annotation is re-decoded wholesale
through `dataclass_from_dict`; a present attribute without an annotation
(a dynamically added field) is assigned directly; an absent attribute goes
to `_update_additional`, which raises under both policies.  The first
raise stops the loop, keeping earlier mutations. -/
def updELoop (env : Env) (policy : UpdatePolicy) (rootName : String) :
    Nat → List String → String → Value → List (String × Data) →
    Value × Option Err
  | 0, _, _, target, _ => (target, some .recursionErr)
  | _ + 1, _, _, target, [] => (target, none)
  | fuel + 1, path, tyName, target, (k0, v) :: rest =>
    let fs := fieldsOf env tyName
    let k := resolveKey fs k0
    if hasAttrVal target k then
      match getAttrVal target k with
      | some (.vrecord subName subFlds) =>
        (match fieldTyAnn fs k with
         | none => (target, some (.keyError k))
         | some ann =>
           let (newSub, err) :=
             updateRec env policy rootName fuel (path ++ [k]) ann
               (.vrecord subName subFlds) v
           let target1 := setAttrVal target k newSub
           match err with
           | some e => (target1, some e)
           | none => updELoop env policy rootName fuel path tyName target1 rest)
      | some .vnull =>
        (match v with
         | .dmap sub =>
           (match fieldTyAnn fs k with
            | none => (target, some (.keyError k))
            | some ann =>
              match dataclassFromDict env fuel ann (.dmap sub) with
              | .ok nv =>
                updELoop env policy rootName fuel path tyName
                  (setAttrVal target k nv) rest
              | .error e => (target, some e))
         | _ =>
           (match fieldTyAnn fs k with
            | some ann =>
              (match dataclassFromDict env fuel ann v with
               | .ok nv =>
                 updELoop env policy rootName fuel path tyName
                   (setAttrVal target k nv) rest
               | .error e => (target, some e))
            | none =>
              updELoop env policy rootName fuel path tyName
                (setAttrVal target k (dataToValue v)) rest))
      | _ =>
        (match fieldTyAnn fs k with
         | some ann =>
           (match dataclassFromDict env fuel ann v with
            | .ok nv =>
              updELoop env policy rootName fuel path tyName
                (setAttrVal target k nv) rest
            | .error e => (target, some e))
         | none =>
           updELoop env policy rootName fuel path tyName
             (setAttrVal target k (dataToValue v)) rest)
    else
      (target, some (additionalFieldErr policy rootName (path ++ [k])))

end

/-- Configuration object state: the schema type, the cached compiled
schema document, and the owned record instance. -/
structure ConfState where
  schemaName : String
  jschema : JSchema
  data : Value

/-- The body of `Config.update`: snapshot (`deepcopy`, the identity on pure
values), apply the patch, then re-validate; the rollback `try` block wraps
only the `self.validate()` call, so an error raised while applying the
patch propagates without restoring the snapshot.  `self.validate()`
encodes the instance with aliases and runs `validate_json`, whose widening
mutates the cached schema document (threaded into the new state). -/
def configUpdate (env : Env) (policy : UpdatePolicy) (fuel : Nat)
    (st : ConfState) (patch : Data) : ConfState × Option Err :=
  let old := st.data
  let (newData, errA) :=
    updateRec env policy st.schemaName fuel [] (.trec st.schemaName) st.data patch
  match errA with
  | some e => ({ st with data := newData }, some e)
  | none =>
    let (js', errV) := validateJson st.jschema (encodeVal env newData)
    match errV with
    | some e => ({ st with jschema := js', data := old }, some e)
    | none => ({ st with jschema := js', data := newData }, none)

/-- The dict path of `Config.__init__`: compile the schema (raising on an
invalid schema), validate the incoming map against it (the widening
mutates the cached document), then decode the map into the record
instance. -/
def configInitDict (env : Env) (fuel : Nat) (schemaName : String)
    (d : Data) : Except Err ConfState := do
  let js ← toJsonSchemaF env true none fuel schemaName
  let (js', errv) := validateJson js d
  match errv with
  | some e => .error e
  | none => do
    let v ← dataclassFromDict env fuel (.trec schemaName) d
    .ok ⟨schemaName, js', v⟩

end Eyconf

namespace Eyconf

/-- An overlay node (`AttributeDict` of `config/extra_fields.py`): either a
stored plain value or a nested attribute dictionary with ordered entries. -/
inductive ANode where
  | leaf (v : Value)
  | tree (entries : List (String × ANode))

mutual

/-- The `AttributeDict.__setattr__` conversion: a dict value becomes a
nested `AttributeDict` (recursively, through `__init__`), anything else is
stored as-is. -/
def dataToANode : Data → ANode
  | .dmap es => .tree (dataToANodeEntries es)
  | d => .leaf (dataToValue d)

/-- Entrywise conversion of a dict into overlay entries. -/
def dataToANodeEntries : List (String × Data) → List (String × ANode)
  | [] => []
  | (k, d) :: rest => (k, dataToANode d) :: dataToANodeEntries rest

end

/-- The `AttributeDict.__getattr__` of `config/extra_fields.py`: a present
attribute is returned; a missing one is auto-vivified — a fresh empty
`AttributeDict` is created, stored under the name via `setattr`, and
returned.  The second component is the (possibly extended) entry list of
the receiver, modelling the in-place `setattr`. -/
def adGetAttr (entries : List (String × ANode)) (name : String) :
    ANode × List (String × ANode) :=
  match alookup entries name with
  | some n => (n, entries)
  | none => (.tree [], aset entries name (.tree []))

/-- The `AttributeDict.__getitem__` of `config/extra_fields.py`: its body
is exactly `return self.__getattr__(key)`, so subscript access delegates
to attribute access (including the auto-vivification). -/
def adGetItem (entries : List (String × ANode)) (key : String) :
    ANode × List (String × ANode) :=
  adGetAttr entries key

/-- The `AttributeDict.__setattr__` / `__setitem__` write path. -/
def adSetAttr (entries : List (String × ANode)) (name : String) (d : Data) :
    List (String × ANode) :=
  aset entries name (dataToANode d)

/-- Modelled from the spec: `_aliases_map(self._data)` (the decorators
module builds it from `get_metadata`, which is not present in the source
tree): the mapping from declared aliases to field names of the instance's
type.  Only its key set and the alias-to-name direction are used here. -/
def aliasKeys (env : Env) (v : Value) : List String :=
  match v with
  | .vrecord tn _ => (fieldsOf env tn).filterMap (fun f => f.aliasName)
  | _ => []

/-- The `_get_attr_resolve_alias` helper: an alias key reads the aliased
field; a field name that has a declared alias is rejected with `KeyError`
(subscripting must use the alias); any other name is read directly. -/
def getAttrResolveAlias (env : Env) (v : Value) (key : String) :
    Except Err Value :=
  let fs := match v with
            | .vrecord tn _ => fieldsOf env tn
            | _ => []
  match aliasToName fs key with
  | some n =>
    match getAttrVal v n with
    | some x => .ok x
    | none => .error (.attrError n)
  | none =>
    if fs.any (fun f => f.aliasName.isSome && f.name == key) then
      .error (.keyError key)
    else
      match getAttrVal v key with
      | some x => .ok x
      | none => .error (.attrError key)

/-- The state behind an `AccessProxy`: the schema-backed record instance
and the paired extra-data overlay entries. -/
structure ProxyState where
  pdata : Value
  pextra : List (String × ANode)

/-- A runtime object handed back by proxy access: a plain value, an
overlay node (`AttributeDict`), or a nested `AccessProxy` wrapping a
nested record together with its vivified overlay level. -/
inductive PyVal where
  | pv (v : Value)
  | pnode (n : ANode)
  | pproxy (v : Value) (n : ANode)

/-- The `AccessProxy.__getitem__` of `config/extra_fields.py`: when the key
is a declared alias or a present attribute of the record, read through
`_get_attr_resolve_alias`; otherwise fall back to `getattr` on the overlay,
which auto-vivifies a missing key. -/
def proxyGetItem (env : Env) (st : ProxyState) (key : String) :
    Except Err (PyVal × ProxyState) :=
  if (aliasKeys env st.pdata).contains key || hasAttrVal st.pdata key then
    match getAttrResolveAlias env st.pdata key with
    | .ok v => .ok (.pv v, st)
    | .error e => .error e
  else
    let (n, entries') := adGetAttr st.pextra key
    .ok (.pnode n, { st with pextra := entries' })

/-- The `AccessProxy.__getattr__`: a present record attribute is returned
(wrapped in a nested proxy when it is itself a record, vivifying the
matching overlay level); a missing attribute falls back to the overlay's
`getattr`, which auto-vivifies. -/
def proxyGetAttr (env : Env) (st : ProxyState) (name : String) :
    PyVal × ProxyState :=
  match getAttrVal st.pdata name with
  | some ret =>
    match ret with
    | .vrecord tn flds =>
      let (n, entries') := adGetAttr st.pextra name
      (.pproxy (.vrecord tn flds) n, { st with pextra := entries' })
    | other => (.pv other, st)
  | none =>
    let (n, entries') := adGetAttr st.pextra name
    (.pnode n, { st with pextra := entries' })

/-- State of a `ConfigExtra` object: the base configuration state plus the
extra-field overlay. -/
structure ConfExtraState where
  base : ConfState
  extra : List (String × ANode)

/-- `ConfigExtra.update` is inherited from `Config.update` unchanged; its
`_update_additional` override has the incompatible signature, so the
engine runs under the `extraSig` policy.  The overlay is only ever touched
inside `_update_additional`, whose body is never reached. -/
def configExtraUpdate (env : Env) (fuel : Nat) (st : ConfExtraState)
    (patch : Data) : ConfExtraState × Option Err :=
  let (b, e) := configUpdate env .extraSig fuel st.base patch
  ({ st with base := b }, e)

/-- Record-type names directly referenced by a resolved field type, as
`iter_dataclass_type` collects them: the type itself when it is a record,
or the record-typed arguments one level under a union, sequence, or
mapping origin (matching the source's one-level `get_args` scan; a
`typing.Optional` union is written `X | None` throughout this code base,
so the union origin is `types.UnionType`). -/
def directRecNames : Ty → List String
  | .trec n => [n]
  | .tunion args =>
    args.filterMap (fun t =>
      match t with
      | .trec n => some n
      | _ => none)
  | .tlist e =>
    (match e with
     | .trec n => [n]
     | _ => [])
  | .tdict v =>
    (match v with
     | .trec n => [n]
     | _ => [])
  | _ => []

/-- The record types referenced by the fields of a record definition. -/
def nestedNamesOfDef (rd : RecordDef) : List String :=
  rd.fields.flatMap (fun f => directRecNames f.ty)

/-- The record types referenced one step from type `t`
(the per-iteration field scan of `iter_dataclass_type`). -/
def nestedRecNames (env : Env) (t : String) : List String :=
  match lookupRec env t with
  | some rd => nestedNamesOfDef rd
  | none => []

/-- All record-type names referenced anywhere in the environment; every
name the worklist can ever push belongs to this set. -/
def allNames (env : Env) : List String :=
  env.flatMap (fun p => nestedNamesOfDef p.2)

end Eyconf

namespace Eyconf

/-- The candidate universe for the worklist: every name any field can
push.  Used only by the termination measure of `iterAux`. -/
def candidatesF (env : Env) : Finset String := (allNames env).toFinset

/-- A successful lookup returns a definition stored in the environment. -/
theorem lookupRec_mem :
    ∀ {env : Env} {t : String} {rd : RecordDef},
      lookupRec env t = some rd → ∃ k, (k, rd) ∈ env := by
  intro env
  induction env with
  | nil => intro t rd h; simp [lookupRec] at h
  | cons hd tl ih =>
    intro t rd h
    simp only [lookupRec] at h
    by_cases hk : hd.1 = t
    · simp [hk] at h
      exact ⟨hd.1, by simp [← h]⟩
    · simp [hk] at h
      obtain ⟨k, hm⟩ := ih h
      exact ⟨k, List.mem_cons_of_mem _ hm⟩

/-- Membership in the nested names of `t` implies membership in the
environment-wide name universe. -/
theorem nestedRecNames_subset_allNames (env : Env) (t : String) :
    ∀ s ∈ nestedRecNames env t, s ∈ allNames env := by
  intro s hs
  unfold nestedRecNames at hs
  cases hl : lookupRec env t with
  | none => rw [hl] at hs; simp at hs
  | some rd =>
    rw [hl] at hs
    obtain ⟨k, hm⟩ := lookupRec_mem hl
    unfold allNames
    exact List.mem_flatMap.mpr ⟨(k, rd), hm, hs⟩

/-- The worklist of `iter_dataclass_type`: pop a type; skip it when
already visited; otherwise mark it visited, yield it, and push its nested
record types that are not yet visited (`_add_type_to_stack` checks the
visited set at push time as well).  The model pops from the head of the
stack list; Python pops from the end, which permutes the traversal order
but yields the same set of types. -/
def iterAux (env : Env) (visited : Finset String) (stack : List String) :
    List String :=
  match stack with
  | [] => []
  | t :: rest =>
    if t ∈ visited then iterAux env visited rest
    else
      t :: iterAux env (insert t visited)
        (((nestedRecNames env t).filter
            (fun s => decide (s ∉ insert t visited))) ++ rest)
termination_by (((candidatesF env ∪ stack.toFinset) \ visited).card, stack.length)
decreasing_by
  · have he : (candidatesF env ∪ (t :: rest).toFinset) \ visited =
        (candidatesF env ∪ rest.toFinset) \ visited := by
      ext x
      simp only [Finset.mem_sdiff, Finset.mem_union, List.toFinset_cons,
        Finset.mem_insert, List.mem_toFinset]
      constructor
      · rintro ⟨hx, hnv⟩
        refine ⟨?_, hnv⟩
        rcases hx with h1 | h2
        · exact Or.inl h1
        · rcases h2 with rfl | h3
          · exact absurd (by assumption) hnv
          · exact Or.inr h3
      · rintro ⟨hx, hnv⟩
        refine ⟨?_, hnv⟩
        rcases hx with h1 | h3
        · exact Or.inl h1
        · exact Or.inr (Or.inr h3)
    rw [he]
    apply Prod.Lex.right
    simp
  · apply Prod.Lex.left
    have hsub : (candidatesF env ∪
        (((nestedRecNames env t).filter
            (fun s => decide (s ∉ insert t visited))) ++ rest).toFinset) \
          insert t visited ⊆
        (((candidatesF env ∪ (t :: rest).toFinset) \ visited).erase t) := by
      intro x hx
      simp only [Finset.mem_sdiff, Finset.mem_union, List.toFinset_append,
        List.mem_toFinset, List.mem_filter, Finset.mem_insert,
        List.toFinset_cons, Finset.mem_erase] at hx ⊢
      obtain ⟨hx1, hx2⟩ := hx
      push_neg at hx2
      obtain ⟨hxt, hxv⟩ := hx2
      refine ⟨hxt, ?_, hxv⟩
      rcases hx1 with h1 | h2
      · exact Or.inl h1
      · rcases h2 with h3 | h4
        · have hall : x ∈ allNames env :=
            nestedRecNames_subset_allNames env t x h3.1
          refine Or.inl ?_
          simpa [candidatesF] using hall
        · exact Or.inr (Or.inr h4)
    have hmem : t ∈ (candidatesF env ∪ (t :: rest).toFinset) \ visited := by
      rw [Finset.mem_sdiff]
      exact ⟨by simp, by assumption⟩
    calc ((candidatesF env ∪
        (((nestedRecNames env t).filter
            (fun s => decide (s ∉ insert t visited))) ++ rest).toFinset) \
          insert t visited).card
        ≤ (((candidatesF env ∪ (t :: rest).toFinset) \ visited).erase t).card :=
          Finset.card_le_card hsub
      _ < ((candidatesF env ∪ (t :: rest).toFinset) \ visited).card :=
          Finset.card_erase_lt_of_mem hmem

/-- `iter_dataclass_type(schema)`: the worklist started with an empty
visited set and the root type on the stack. -/
def iterTypes (env : Env) (root : String) : List String :=
  iterAux env ∅ [root]

end Eyconf

namespace Eyconf

/-- The test schema `Config42` of the source tree:
`int_field: int = 42`, `str_field: str = "FortyTwo!"`. -/
def env42 : Env :=
  [("Config42",
    ⟨[⟨"int_field", none, .tint, some (.vint 42)⟩,
      ⟨"str_field", none, .tstr, some (.vstr "FortyTwo!")⟩], false⟩)]

/-- The default `Config42()` instance. -/
def default42 : Value :=
  .vrecord "Config42" [("int_field", .vint 42), ("str_field", .vstr "FortyTwo!")]

/-- The schema document `to_json_schema(Config42)` compiles to. -/
def js42 : JSchema :=
  .mk (some (.single "object")) none none none
    (some [("int_field", scalarSchema "integer"),
           ("str_field", scalarSchema "string")]) none
    ["int_field", "str_field"] (some false)

/-- The compiler does produce `js42` for `Config42`. -/
theorem toJsonSchema_env42 : toJsonSchemaF env42 true none 10 "Config42" = .ok js42 := rfl

/-- A one-field record type whose field `attr_field` declares the alias
`dict_field` (the `AliasConfig` pattern of the source's alias tests). -/
def envAlias : Env :=
  [("AliasConfig", ⟨[⟨"attr_field", some "dict_field", .tint, none⟩], false⟩)]

/-- Config state for a base `Config` over `Config42` with its defaults. -/
def st42 : ConfState := ⟨"Config42", js42, default42⟩

end Eyconf

namespace Eyconf

/-- The schema document compiled for `AliasConfig`: the property and the
required entry are keyed by the alias. -/
def jsAlias : JSchema :=
  .mk (some (.single "object")) none none none
    (some [("dict_field", scalarSchema "integer")]) none
    ["dict_field"] (some false)

/-- C4: against a schema whose field `attr_field` has alias `dict_field`,
construction from the map keyed by the alias succeeds and stores 16 in
`attr_field`, while construction from the map keyed by the declared field
name fails validation: the compiled schema keys the property and its
required entry by the alias, so the declared name is not a valid input
key. -/
theorem c4_alias_asymmetry :
    toJsonSchemaF envAlias true none 10 "AliasConfig" = .ok jsAlias ∧
    (∃ st, configInitDict envAlias 10 "AliasConfig"
        (.dmap [("dict_field", .dint 16)]) = .ok st ∧
      getAttrVal st.data "attr_field" = some (.vint 16)) ∧
    configInitDict envAlias 10 "AliasConfig"
        (.dmap [("attr_field", .dint 16)]) = .error .configErr := by
  refine ⟨rfl, ⟨⟨"AliasConfig", allowNone jsAlias,
    .vrecord "AliasConfig" [("attr_field", .vint 16)]⟩, rfl, rfl⟩, rfl⟩

end Eyconf

namespace Eyconf

/-- A record type with a field whose literal set mixes a string and a
boolean. -/
def envMixLit : Env :=
  [("CMix", ⟨[⟨"m", none, .tlit [.lstr "a", .lbool true], none⟩], false⟩)]

/-- A record type with an empty literal set. -/
def envEmptyLit : Env :=
  [("CEmpty", ⟨[⟨"e", none, .tlit [], none⟩], false⟩)]

/-- A record type with a literal of an unsupported runtime type. -/
def envBadLit : Env :=
  [("CBad", ⟨[⟨"b", none, .tlit [.lother "bytes"], none⟩], false⟩)]

/-- C7: a literal field mixing strings and booleans compiles to an
enumerated node whose `type` is the list of the underlying value types, in
order of first occurrence; an empty literal set makes compilation raise
(the emitted `type: []` fails the schema self-check, modelled from the
meta-schema's nonempty-array constraint); a literal of an unsupported
runtime type makes compilation raise a `ValueError` from
`__infer_type_from_values`. -/
theorem c7_literal_enum_nodes :
    toJsonSchemaF envMixLit true none 10 "CMix" =
      .ok (.mk (some (.single "object")) none none none
        (some [("m", .mk (some (.multi ["string", "boolean"]))
          (some [.lstr "a", .lbool true]) none none none none [] none)]) none
        ["m"] (some false)) ∧
    toJsonSchemaF envEmptyLit true none 10 "CEmpty" = .error .schemaErr ∧
    toJsonSchemaF envBadLit true none 10 "CBad" =
      .error (.valueError "unsupported literal type") :=
  ⟨rfl, rfl, rfl⟩

/-- A record type with a required field of type `Literal[1, 2]`. -/
def envLit : Env :=
  [("CLit", ⟨[⟨"lit", none, .tlit [.lint 1, .lint 2], none⟩], false⟩)]

/-- The schema compiled for `CLit`. -/
def jsLit : JSchema :=
  .mk (some (.single "object")) none none none
    (some [("lit", .mk (some (.single "integer")) (some [.lint 1, .lint 2])
      none none none none [] none)]) none
    ["lit"] (some false)

/-- C10 counterexample: for the compiled schema of a record with a
`Literal[1, 2]` field, the data map supplying `None` for that declared
field is rejected by validation even after the null-widening: the widened
node's `type` accepts null, but the `enum` keyword still excludes it.  So
it is not the case that a `None` for any declared field always passes. -/
theorem c10_counterexample :
    toJsonSchemaF envLit true none 10 "CLit" = .ok jsLit ∧
    (validateJson jsLit (.dmap [("lit", .dnull)])).2 = some .configErr :=
  ⟨rfl, rfl⟩

/-- Two record types with one required `int` field each, and a record
whose field `f` is the union of the two. -/
def envC6 : Env :=
  [("RecA", ⟨[⟨"a", none, .tint, none⟩], false⟩),
   ("RecB", ⟨[⟨"b", none, .tint, none⟩], false⟩),
   ("R6", ⟨[⟨"f", none, .tunion [.trec "RecA", .trec "RecB"], none⟩], false⟩)]

/-- C6 counterexample: decoding `dict(f=dict(zz=1))` against `R6` makes
both union alternatives raise (each record constructor is missing its
required field), the exhausted union loop returns `None`, and the record
decode silently accepts `None` as the value of `f` — the decode succeeds
instead of failing with an aggregate error. -/
theorem c6_counterexample :
    dataclassFromDict envC6 20 (.trec "R6")
      (.dmap [("f", .dmap [("zz", .dint 1)])]) =
    .ok (.vrecord "R6" [("f", .vnull)]) := rfl

/-- Record types for the round-trip counterexample: `A` has two defaulted
`int` fields, `B` one, and `R` holds a field of type `A | B`. -/
def envAB : Env :=
  [("A", ⟨[⟨"x", none, .tint, some (.vint 1)⟩,
           ⟨"y", none, .tint, some (.vint 2)⟩], false⟩),
   ("B", ⟨[⟨"x", none, .tint, some (.vint 5)⟩], false⟩),
   ("R", ⟨[⟨"u", none, .tunion [.trec "A", .trec "B"], none⟩], false⟩)]

/-- An `R` instance holding a `B` in its union field. -/
def rEx : Value := .vrecord "R" [("u", .vrecord "B" [("x", .vint 5)])]

/-- C3 counterexample: encode-then-decode does not reproduce `rEx`: the
encoding of the `B` value also satisfies the earlier union alternative
`A` (its missing field has a default), so first-wins decoding returns an
`A` instance and the round trip changes the field's record type. -/
theorem c3_counterexample :
    dataclassFromDict envAB 20 (.trec "R") (encodeVal envAB rEx) =
      .ok (.vrecord "R" [("u", .vrecord "A" [("x", .vint 5), ("y", .vint 2)])]) ∧
    Value.vrecord "R" [("u", .vrecord "A" [("x", .vint 5), ("y", .vint 2)])] ≠ rEx :=
  ⟨rfl, by simp [rEx]⟩

/-- C1 counterexample: a patch that first mutates a declared field and
then hits an unknown field raises the unknown-field `AttributeError`, and
after the call the instance keeps the mutated value 100 — the pre-call
state is not restored, because the source wraps only `self.validate()` in
the rollback `try` block, not the patch application. -/
theorem c1_counterexample :
    configUpdate env42 .strict 20 st42
      (.dmap [("int_field", .dint 100), ("zzz", .dint 5)]) =
      (⟨"Config42", js42,
        .vrecord "Config42" [("int_field", .vint 100), ("str_field", .vstr "FortyTwo!")]⟩,
       some (.attrError "Config42.zzz")) ∧
    Value.vrecord "Config42" [("int_field", .vint 100), ("str_field", .vstr "FortyTwo!")]
      ≠ st42.data :=
  ⟨rfl, by simp [st42, default42]⟩

/-- C1 amended: rollback is guaranteed exactly for the re-validation
phase: whenever the recursive patch application itself finishes without
raising and `update` then raises, the raised error is the validation
aggregate and the record instance is restored to its pre-call snapshot. -/
theorem c1_rollback_amended (env : Env) (policy : UpdatePolicy) (fuel : Nat)
    (st : ConfState) (patch : Data) (st' : ConfState) (e : Err)
    (happly : (updateRec env policy st.schemaName fuel []
      (.trec st.schemaName) st.data patch).2 = none)
    (hrun : configUpdate env policy fuel st patch = (st', some e)) :
    st'.data = st.data ∧ e = .configErr := by
  unfold configUpdate at hrun
  rcases hup : updateRec env policy st.schemaName fuel []
    (.trec st.schemaName) st.data patch with ⟨nd, err⟩
  rw [hup] at hrun happly
  simp only at happly
  subst happly
  cases hv : validateNode (validatorFuel (allowNone st.jschema) (encodeVal env nd))
      (allowNone st.jschema) (encodeVal env nd)
  · simp [validateJson, hv] at hrun
    obtain ⟨h1, h2⟩ := hrun
    subst h2
    subst h1
    exact ⟨rfl, rfl⟩
  · simp [validateJson, hv] at hrun

/-- Witness for the amended C1 rollback: updating `int_field` with a
string applies cleanly, fails validation, and is rolled back. -/
theorem c1_rollback_witness :
    (updateRec env42 .strict "Config42" 20 [] (.trec "Config42") st42.data
      (.dmap [("int_field", .dstr "oops")])).2 = none ∧
    (configUpdate env42 .strict 20 st42
      (.dmap [("int_field", .dstr "oops")])).1.data = st42.data := by
  constructor
  · rfl
  · exact (c1_rollback_amended env42 .strict 20 st42
      (.dmap [("int_field", .dstr "oops")])
      ⟨"Config42", allowNone js42, st42.data⟩ .configErr rfl rfl).1

/-- C8: on a strict base configuration the unknown key raises an
`AttributeError` naming the full dotted path from the root type; on the
overlay-enabled `ConfigExtra` the same call raises `TypeError` instead of
diverting the key into the overlay, because the `_update_additional`
override's parameter list cannot be bound from the base class call — the
overlay stays empty and the new field is not stored. -/
theorem c8_unknown_field_update :
    configUpdate env42 .strict 20 st42 (.dmap [("new_field", .dstr "v")]) =
      (st42, some (.attrError "Config42.new_field")) ∧
    configExtraUpdate env42 20 ⟨st42, []⟩ (.dmap [("new_field", .dstr "v")]) =
      (⟨st42, []⟩, some (.typeError "update-additional call signature mismatch")) :=
  ⟨rfl, rfl⟩

/-- C9 counterexample: subscript access on an `AccessProxy` for a key
absent from both the record and the overlay does not raise: it returns a
freshly auto-vivified empty overlay node and stores it, exactly like
attribute access. -/
theorem c9_counterexample :
    proxyGetItem env42 ⟨default42, []⟩ "missing" =
      .ok (.pnode (.tree []), ⟨default42, [("missing", .tree [])]⟩) := rfl

end Eyconf

namespace Eyconf

/-- A record attribute is absent exactly when `hasattr` is false. -/
theorem getAttrVal_eq_none (v : Value) (k : String)
    (h : hasAttrVal v k = false) : getAttrVal v k = none := by
  cases v <;> simp [hasAttrVal, getAttrVal] at h ⊢
  case vrecord tn flds =>
    cases hl : alookup flds k with
    | none => rfl
    | some x => rw [hl] at h; simp at h

/-- C9 amended: for a key absent from the record (neither an alias nor a
present attribute) and absent from the overlay, subscript access on the
proxy behaves exactly like attribute access: it returns a freshly
auto-vivified empty overlay node and stores it under the key — it does not
raise.  At the `AttributeDict` level, `__getitem__` is literally
`__getattr__`. -/
theorem c9_subscript_vivifies (env : Env) (st : ProxyState) (k : String)
    (halias : (aliasKeys env st.pdata).contains k = false)
    (hattr : hasAttrVal st.pdata k = false)
    (hextra : alookup st.pextra k = none) :
    proxyGetItem env st k =
      .ok (.pnode (.tree []), ⟨st.pdata, aset st.pextra k (.tree [])⟩) ∧
    proxyGetAttr env st k =
      (.pnode (.tree []), ⟨st.pdata, aset st.pextra k (.tree [])⟩) ∧
    adGetItem st.pextra k = adGetAttr st.pextra k := by
  obtain ⟨pd, pe⟩ := st
  simp only at halias hattr hextra
  have halias2 : k ∉ aliasKeys env pd := by simpa using halias
  refine ⟨?_, ?_, rfl⟩
  · simp [proxyGetItem, halias2, hattr, adGetAttr, hextra]
  · simp [proxyGetAttr, getAttrVal_eq_none pd k hattr, adGetAttr, hextra]

/-- Witness for the amended C9: the key `"extra"` on a fresh `Config42`
proxy state. -/
theorem c9_subscript_vivifies_witness :
    proxyGetItem env42 ⟨default42, []⟩ "extra" =
      .ok (.pnode (.tree []), ⟨default42, [("extra", .tree [])]⟩) ∧
    proxyGetAttr env42 ⟨default42, []⟩ "extra" =
      (.pnode (.tree []), ⟨default42, [("extra", .tree [])]⟩) := by
  have h := c9_subscript_vivifies env42 ⟨default42, []⟩ "extra" rfl rfl rfl
  exact ⟨h.1, h.2.1⟩

/-- C6 amended: union decoding tries the non-absence alternatives in
declaration order and the first alternative whose decode does not raise a
catchable error wins; an explicit `None` input short-circuits to the
absence value when the union lists the absence marker, without trying any
alternative; but when every alternative raises, the inner decoder returns
the absence value `None` without an exception — nested inside a record
this `None` silently becomes the field's value, and only the top-level
`dataclass_from_dict` wrapper turns a `None` result into a single
`ValueError` (not an aggregate error). -/
theorem c6_union_decode_amended (env : Env) (allowAdd : Bool) (fuel : Nat) :
    (∀ args : List Ty, args.any Ty.isNone = true →
      decodeD env allowAdd (fuel + 1) (.tunion args) .dnull = .ok .vnull) ∧
    (∀ (arg : Ty) (rest : List Ty) (data : Data) (v : Value),
      arg.isNone = false → decodeD env allowAdd fuel arg data = .ok v →
      decodeAlts env allowAdd (fuel + 1) (arg :: rest) data = .ok v) ∧
    (∀ (arg : Ty) (rest : List Ty) (data : Data) (e : Err),
      arg.isNone = false → decodeD env allowAdd fuel arg data = .error e →
      e.unionCatchable = true →
      decodeAlts env allowAdd (fuel + 1) (arg :: rest) data =
        decodeAlts env allowAdd fuel rest data) ∧
    (∀ data : Data, decodeAlts env allowAdd (fuel + 1) [] data = .ok .vnull) ∧
    (∀ (ty : Ty) (data : Data), decodeD env allowAdd fuel ty data = .ok .vnull →
      dataclassFromDict env fuel ty data allowAdd =
        .error (.valueError "could not parse data")) := by
  refine ⟨?_, ?_, ?_, ?_, ?_⟩
  · intro args h
    simp [decodeD, h]
  · intro arg rest data v h1 h2
    simp [decodeAlts, h1, h2]
  · intro arg rest data e h1 h2 h3
    simp [decodeAlts, h1, h2, h3]
  · intro data
    rfl
  · intro ty data h
    simp [dataclassFromDict, h]

/-- Witness for the amended C6, on the `envC6` union types: a `None`
input short-circuits, an `int` alternative wins first, a failing record
alternative is skipped, exhaustion yields `None`, and the wrapper turns
the `None` into a single `ValueError`. -/
theorem c6_union_decode_witness :
    decodeD envC6 false 20 (.tunion [.tnone, .tint]) .dnull = .ok .vnull ∧
    decodeAlts envC6 false 20 [.tint, .tstr] (.dint 7) = .ok (.vint 7) ∧
    decodeAlts envC6 false 20 [.trec "RecA", .tint] (.dmap [("zz", .dint 1)]) =
      decodeAlts envC6 false 19 [.tint] (.dmap [("zz", .dint 1)]) ∧
    decodeAlts envC6 false 20 [] (.dstr "x") = .ok .vnull ∧
    dataclassFromDict envC6 19 (.tunion [.trec "RecA", .trec "RecB"])
      (.dmap [("zz", .dint 1)]) = .error (.valueError "could not parse data") := by
  have h := c6_union_decode_amended envC6 false 19
  exact ⟨h.1 [.tnone, .tint] rfl,
    h.2.1 .tint [.tstr] (.dint 7) (.vint 7) rfl rfl,
    h.2.2.1 (.trec "RecA") [.tint] (.dmap [("zz", .dint 1)])
      (.valueError "failed to create RecA") rfl rfl rfl,
    h.2.2.2.1 (.dstr "x"),
    h.2.2.2.2 (.tunion [.trec "RecA", .trec "RecB"]) (.dmap [("zz", .dint 1)]) rfl⟩

end Eyconf

namespace Eyconf

mutual

/-- Whether a schema node accepts `null` once widened: its `enum`, when
present, must list `null`, and its `anyOf`, when present, must have a
branch that accepts `null`.  A `type` keyword never rejects `null` after
widening, and the object/array keywords do not constrain `null` at all. -/
def acceptsNullW : JSchema → Bool
  | .mk _ e a _ _ _ _ _ =>
    (match e with
     | none => true
     | some lits => lits.contains .lnull) &&
    (match a with
     | none => true
     | some l => anyAcceptsNullW l)

/-- Some branch accepts `null`. -/
def anyAcceptsNullW : List JSchema → Bool
  | [] => false
  | s :: rest => acceptsNullW s || anyAcceptsNullW rest

end

/-- A widened `type` keyword always admits `null`. -/
theorem typeSpecOk_allowNoneType_null (ts : JTypeSpec) :
    typeSpecOk (allowNoneType ts) .dnull = true := by
  cases ts with
  | single t =>
    simp [allowNoneType, typeSpecOk, jsonTypeMatches, dataTypeName]
  | multi l =>
    simp only [allowNoneType]
    split
    · next hc =>
      simp only [typeSpecOk]
      refine List.any_eq_true.mpr ⟨"null", ?_, ?_⟩
      · simpa using hc
      · simp [jsonTypeMatches, dataTypeName]
    · simp only [typeSpecOk]
      refine List.any_eq_true.mpr ⟨"null", ?_, ?_⟩
      · simp
      · simp [jsonTypeMatches, dataTypeName]

/-- A member of a subschema list is no larger than the whole list. -/
theorem jschemaSize_le_of_mem :
    ∀ {l : List JSchema} {b : JSchema}, b ∈ l → jschemaSize b ≤ jschemaSizeList l := by
  intro l
  induction l with
  | nil => intro b h; simp at h
  | cons s rest ih =>
    intro b h
    rcases List.mem_cons.mp h with rfl | h2
    · simp [jschemaSizeList]
      omega
    · have := ih h2
      simp [jschemaSizeList]
      omega

/-- Unfolding of `validateNode` at successor fuel (definitional). -/
theorem validateNode_succ (fuel : Nat) (t : Option JTypeSpec) (e : Option (List Lit))
    (a : Option (List JSchema)) (i : Option JSchema)
    (p : Option (List (String × JSchema))) (pp : Option JSchema)
    (r : List String) (ap : Option Bool) (d : Data) :
    validateNode (fuel + 1) (.mk t e a i p pp r ap) d =
    ((match t with
     | none => true
     | some ts => typeSpecOk ts d) &&
    (match e with
     | none => true
     | some lits => lits.any (fun l => litMatchesData l d)) &&
    (match a with
     | none => true
     | some branches => anyBranchOk fuel branches d) &&
    (match d, i with
     | .dlist items, some s => allItemsOk fuel s items
     | _, _ => true) &&
    (match d, p with
     | .dmap es, some props => propsOk fuel props es
     | _, _ => true) &&
    (match d, pp with
     | .dmap es, some s => allValsOk fuel s es
     | _, _ => true) &&
    (match d with
     | .dmap es => r.all (fun k => es.any (fun kv => kv.1 == k))
     | _ => true) &&
    (match d, ap with
     | .dmap es, some false => es.all (fun kv => keyCovered p pp kv.1)
     | _, _ => true)) := rfl

/-- Every widened enum-free schema node accepts `null` when given enough
fuel (the node's own size suffices). -/
theorem validateNode_allowNone_null :
    ∀ (fuel : Nat) (S : JSchema), acceptsNullW S = true →
      jschemaSize S < fuel → validateNode fuel (allowNone S) .dnull = true := by
  intro fuel
  induction fuel using Nat.strong_induction_on with
  | _ fuel ih =>
    intro S hacc hsize
    match fuel with
    | 0 => omega
    | f + 1 =>
      obtain ⟨t, e, a, i, p, pp, r, ap⟩ := S
      unfold acceptsNullW at hacc
      rw [Bool.and_eq_true] at hacc
      obtain ⟨he, ha⟩ := hacc
      rw [show allowNone (.mk t e a i p pp r ap) =
        .mk (allowNoneOptType t) e (allowNoneOptList a) (allowNoneOpt i)
          (allowNoneOptProps p) (allowNoneOpt pp) r ap from rfl]
      rw [validateNode_succ]
      simp only [Bool.and_eq_true]
      refine ⟨⟨⟨⟨⟨⟨⟨?_, ?_⟩, ?_⟩, ?_⟩, ?_⟩, ?_⟩, ?_⟩, ?_⟩
      · cases t with
        | none => rfl
        | some ts =>
          simpa [allowNoneOptType] using typeSpecOk_allowNoneType_null ts
      · cases e with
        | none => rfl
        | some lits =>
          simp only at he
          refine List.any_eq_true.mpr ⟨.lnull, ?_, ?_⟩
          · simpa using he
          · simp [litMatchesData]
      · cases a with
        | none => rfl
        | some l =>
          rw [show allowNoneOptList (some l) = some (allowNoneList l) from rfl]
          simp only at ha
          have hsz : jschemaSizeList l < f := by
            simp [jschemaSize, jschemaSizeOptList] at hsize
            omega
          clear he hsize
          induction l generalizing f with
          | nil => simp [anyAcceptsNullW] at ha
          | cons sc rest ihl =>
            simp only [anyAcceptsNullW, Bool.or_eq_true] at ha
            match f with
            | 0 => simp [jschemaSizeList] at hsz
            | g + 1 =>
              show (validateNode g (allowNone sc) Data.dnull ||
                  anyBranchOk g (allowNoneList rest) Data.dnull) = true
              rw [Bool.or_eq_true]
              rcases ha with h1 | h2
              · left
                refine ih g (by omega) sc h1 ?_
                simp [jschemaSizeList] at hsz
                omega
              · right
                have hsz2 : jschemaSizeList rest < g := by
                  simp [jschemaSizeList] at hsz
                  omega
                exact ihl g (fun m hm S hS1 hS2 => ih m (by omega) S hS1 hS2) h2 hsz2
      · trivial
      · trivial
      · trivial
      · trivial
      · trivial

/-- C10 amended: `allow_none_in_schema` widens every `type` keyword in
place (the mutated cached document is what `validate_json` returns), so a
`None` value passes validation at every widened node that carries no
`enum` exclusion — in particular a required primitive `int` field accepts
`None` — but an enumerated (Literal) node whose literal set lacks `None`
still rejects it through the `enum` keyword. -/
theorem c10_null_widening_amended :
    (∀ (fuel : Nat) (S : JSchema), acceptsNullW S = true →
      jschemaSize S < fuel → validateNode fuel (allowNone S) .dnull = true) ∧
    (validateJson js42 (.dmap [("int_field", .dnull), ("str_field", .dnull)])).2
      = none ∧
    (∀ (schema : JSchema) (data : Data),
      (validateJson schema data).1 = allowNone schema) := by
  refine ⟨validateNode_allowNone_null, rfl, ?_⟩
  intro schema data
  by_cases h :
    validateNode (validatorFuel (allowNone schema) data) (allowNone schema) data
      = true
  · simp [validateJson, h]
  · simp [validateJson, h]

/-- Witness for the amended C10: the compiled `Config42` schema node is
enum-free, and its widened form accepts `null`. -/
theorem c10_null_widening_witness :
    acceptsNullW js42 = true ∧ jschemaSize js42 < 50 ∧
    validateNode 50 (allowNone js42) .dnull = true := by
  refine ⟨rfl, by decide, ?_⟩
  exact (c10_null_widening_amended).1 50 js42 rfl (by decide)

end Eyconf


namespace Eyconf

/-- aset at a key different from the lookup key preserves the lookup. -/
theorem alookup_aset_ne {A : Type} (l : List (String × A)) (k f : String)
    (v : A) (h : k ≠ f) : alookup (aset l k v) f = alookup l f := by
  induction l with
  | nil =>
    simp only [aset, alookup]
    rw [if_neg h]
  | cons hd tl ih =>
    obtain ⟨k1, v1⟩ := hd
    by_cases hk : k1 = k
    · subst hk
      simp only [aset, if_pos rfl, alookup]
      rw [if_neg h, if_neg h]
    · simp only [aset, if_neg hk, alookup]
      by_cases hf : k1 = f
      · rw [if_pos hf, if_pos hf]
      · rw [if_neg hf, if_neg hf]
        exact ih

/-- setattr at a key different from the read key preserves the read. -/
theorem getAttrVal_setAttrVal_ne (t : Value) (k f : String) (v : Value)
    (h : k ≠ f) : getAttrVal (setAttrVal t k v) f = getAttrVal t f := by
  cases t with
  | vrecord tn flds => exact alookup_aset_ne flds k f v h
  | vint n => rfl
  | vstr s => rfl
  | vbool b => rfl
  | vnull => rfl
  | vlist l => rfl
  | vdict l => rfl

/-- Unfolding of the key loop at successor fuel on a nonempty patch
(definitional). -/
theorem updELoop_succ_cons (env : Env) (policy : UpdatePolicy)
    (rootName : String) (fuel : Nat) (path : List String) (tyName : String)
    (target : Value) (k0 : String) (v : Data) (rest : List (String × Data)) :
    updELoop env policy rootName (fuel + 1) path tyName target
      ((k0, v) :: rest) =
    (let fs := fieldsOf env tyName
     let k := resolveKey fs k0
     if hasAttrVal target k then
       match getAttrVal target k with
       | some (.vrecord subName subFlds) =>
         (match fieldTyAnn fs k with
          | none => (target, some (.keyError k))
          | some ann =>
            let (newSub, err) :=
              updateRec env policy rootName fuel (path ++ [k]) ann
                (.vrecord subName subFlds) v
            let target1 := setAttrVal target k newSub
            match err with
            | some e => (target1, some e)
            | none => updELoop env policy rootName fuel path tyName target1 rest)
       | some .vnull =>
         (match v with
          | .dmap sub =>
            (match fieldTyAnn fs k with
             | none => (target, some (.keyError k))
             | some ann =>
               match dataclassFromDict env fuel ann (.dmap sub) with
               | .ok nv =>
                 updELoop env policy rootName fuel path tyName
                   (setAttrVal target k nv) rest
               | .error e => (target, some e))
          | _ =>
            (match fieldTyAnn fs k with
             | some ann =>
               (match dataclassFromDict env fuel ann v with
                | .ok nv =>
                  updELoop env policy rootName fuel path tyName
                    (setAttrVal target k nv) rest
                | .error e => (target, some e))
             | none =>
               updELoop env policy rootName fuel path tyName
                 (setAttrVal target k (dataToValue v)) rest))
       | _ =>
         (match fieldTyAnn fs k with
          | some ann =>
            (match dataclassFromDict env fuel ann v with
             | .ok nv =>
               updELoop env policy rootName fuel path tyName
                 (setAttrVal target k nv) rest
             | .error e => (target, some e))
          | none =>
            updELoop env policy rootName fuel path tyName
              (setAttrVal target k (dataToValue v)) rest)
     else
       (target, some (additionalFieldErr policy rootName (path ++ [k])))) := rfl

/-- Frame property of the key loop: a declared field whose name is not the
resolution of any patch key is read back unchanged, whether or not the
loop raised. -/
theorem updELoop_frame (env : Env) (policy : UpdatePolicy)
    (rootName : String) :
    ∀ (fuel : Nat) (path : List String) (tyName : String) (target : Value)
      (entries : List (String × Data)) (f : String),
      (∀ e ∈ entries, resolveKey (fieldsOf env tyName) e.1 ≠ f) →
      getAttrVal
          (updELoop env policy rootName fuel path tyName target entries).1 f
        = getAttrVal target f := by
  intro fuel
  induction fuel with
  | zero => intro path tyName target entries f hk; rfl
  | succ fuel ih =>
    intro path tyName target entries f hk
    match entries with
    | [] => rfl
    | (k0, v) :: rest =>
      have hk0 : resolveKey (fieldsOf env tyName) k0 ≠ f := by
        refine hk (k0, v) ?_
        simp
      have hrest : ∀ e ∈ rest, resolveKey (fieldsOf env tyName) e.1 ≠ f := by
        intro e he
        refine hk e ?_
        simp [he]
      rw [updELoop_succ_cons]
      dsimp only
      split
      · split
        · split
          · rfl
          · split
            · exact getAttrVal_setAttrVal_ne _ _ _ _ hk0
            · exact (ih _ _ _ _ _ hrest).trans
                (getAttrVal_setAttrVal_ne _ _ _ _ hk0)
        · split
          · split
            · rfl
            · split
              · exact (ih _ _ _ _ _ hrest).trans
                  (getAttrVal_setAttrVal_ne _ _ _ _ hk0)
              · rfl
          · split
            · split
              · exact (ih _ _ _ _ _ hrest).trans
                  (getAttrVal_setAttrVal_ne _ _ _ _ hk0)
              · rfl
            · exact (ih _ _ _ _ _ hrest).trans
                (getAttrVal_setAttrVal_ne _ _ _ _ hk0)
        · split
          · split
            · exact (ih _ _ _ _ _ hrest).trans
                (getAttrVal_setAttrVal_ne _ _ _ _ hk0)
            · rfl
          · exact (ih _ _ _ _ _ hrest).trans
              (getAttrVal_setAttrVal_ne _ _ _ _ hk0)
      · rfl

end Eyconf

namespace Eyconf

/-- C2: update is a frame operation on untouched fields.  First conjunct:
at every nesting level the key loop leaves any declared field whose name
is not the alias-resolution of a patch key exactly as it was (the read
returns the identical sub-value, so nested sub-objects are preserved),
whether or not the loop raised.  Second conjunct: a successful
`Config.update` call leaves every such top-level field of the record
instance unchanged. -/
theorem c2_update_frame :
    (∀ (env : Env) (policy : UpdatePolicy) (rootName : String) (fuel : Nat)
       (path : List String) (tyName : String) (target : Value)
       (entries : List (String × Data)) (f : String),
       (∀ e ∈ entries, resolveKey (fieldsOf env tyName) e.1 ≠ f) →
       getAttrVal
           (updELoop env policy rootName fuel path tyName target entries).1 f
         = getAttrVal target f) ∧
    (∀ (env : Env) (policy : UpdatePolicy) (fuel : Nat) (st : ConfState)
       (entries : List (String × Data)) (st' : ConfState) (f : String),
       (∀ e ∈ entries, resolveKey (fieldsOf env st.schemaName) e.1 ≠ f) →
       configUpdate env policy fuel st (.dmap entries) = (st', none) →
       getAttrVal st'.data f = getAttrVal st.data f) := by
  refine ⟨updELoop_frame, ?_⟩
  intro env policy fuel st entries st' f hk hrun
  match fuel with
  | 0 =>
    have h0 : (configUpdate env policy 0 st (.dmap entries)).2
        = some .recursionErr := rfl
    rw [hrun] at h0
    simp at h0
  | fuel + 1 =>
    have hstep : configUpdate env policy (fuel + 1) st (.dmap entries) =
      (let res := updELoop env policy st.schemaName fuel [] st.schemaName
        st.data entries
       match res.2 with
       | some e => ({ st with data := res.1 }, some e)
       | none =>
         let vres := validateJson st.jschema (encodeVal env res.1)
         match vres.2 with
         | some e => ({ st with jschema := vres.1, data := st.data }, some e)
         | none => ({ st with jschema := vres.1, data := res.1 }, none)) := rfl
    rw [hstep] at hrun
    dsimp only at hrun
    rcases he : (updELoop env policy st.schemaName fuel [] st.schemaName
        st.data entries).2 with _ | e
    · rw [he] at hrun
      rcases hv : (validateJson st.jschema
          (encodeVal env (updELoop env policy st.schemaName fuel []
            st.schemaName st.data entries).1)).2 with _ | e2
      · rw [hv] at hrun
        simp only [Prod.mk.injEq] at hrun
        obtain ⟨h1, h2⟩ := hrun
        rw [← h1]
        exact updELoop_frame env policy st.schemaName fuel [] st.schemaName
          st.data entries f hk
      · rw [hv] at hrun
        simp at hrun
    · rw [he] at hrun
      simp at hrun

/-- Witness for C2 on the concrete `Config42` schema: patching only
`int_field` succeeds and `str_field` reads back unchanged. -/
theorem c2_update_frame_witness :
    getAttrVal (configUpdate env42 .strict 20 st42
        (.dmap [("int_field", .dint 100)])).1.data "str_field"
      = getAttrVal st42.data "str_field" := by
  refine c2_update_frame.2 env42 .strict 20 st42 [("int_field", .dint 100)]
    (configUpdate env42 .strict 20 st42 (.dmap [("int_field", .dint 100)])).1
    "str_field" ?_ ?_
  · intro e he
    fin_cases he
    decide
  · rfl

end Eyconf


namespace Eyconf

/-- Every name yielded by the worklist was unvisited when the call began. -/
theorem iterAux_not_visited (env : Env) :
    ∀ (visited : Finset String) (stack : List String) (x : String),
      x ∈ iterAux env visited stack → x ∉ visited := by
  intro visited stack
  induction visited, stack using iterAux.induct with
  | env => exact env
  | case1 visited =>
    intro x hx
    simp [iterAux] at hx
  | case2 visited t rest h ih =>
    intro x hx
    rw [iterAux, if_pos h] at hx
    exact ih x hx
  | case3 visited t rest h ih =>
    intro x hx
    rw [iterAux, if_neg h] at hx
    rcases List.mem_cons.mp hx with rfl | hx2
    · exact h
    · have h2 := ih x hx2
      intro hv
      exact h2 (Finset.mem_insert_of_mem hv)

/-- The worklist never yields the same name twice. -/
theorem iterTypes_nodup_aux (env : Env) :
    ∀ (visited : Finset String) (stack : List String),
      (iterAux env visited stack).Nodup := by
  intro visited stack
  induction visited, stack using iterAux.induct with
  | env => exact env
  | case1 visited => simp [iterAux]
  | case2 visited t rest h ih =>
    rw [iterAux, if_pos h]
    exact ih
  | case3 visited t rest h ih =>
    rw [iterAux, if_neg h]
    refine List.nodup_cons.mpr ⟨?_, ih⟩
    intro hmem
    exact iterAux_not_visited env _ _ t hmem (Finset.mem_insert_self t _)

/-- Every yielded name is reachable from some stack entry through the
one-step field-reference relation. -/
theorem iterAux_sound (env : Env) :
    ∀ (visited : Finset String) (stack : List String) (x : String),
      x ∈ iterAux env visited stack →
      ∃ s ∈ stack,
        Relation.ReflTransGen (fun a b => b ∈ nestedRecNames env a) s x := by
  intro visited stack
  induction visited, stack using iterAux.induct with
  | env => exact env
  | case1 visited =>
    intro x hx
    simp [iterAux] at hx
  | case2 visited t rest h ih =>
    intro x hx
    rw [iterAux, if_pos h] at hx
    obtain ⟨s, hs, hr⟩ := ih x hx
    exact ⟨s, List.mem_cons_of_mem _ hs, hr⟩
  | case3 visited t rest h ih =>
    intro x hx
    rw [iterAux, if_neg h] at hx
    rcases List.mem_cons.mp hx with rfl | hx2
    · exact ⟨x, List.mem_cons_self _ _, Relation.ReflTransGen.refl⟩
    · obtain ⟨s, hs, hr⟩ := ih x hx2
      rcases List.mem_append.mp hs with hp | hrr
      · have hstep : s ∈ nestedRecNames env t := (List.mem_filter.mp hp).1
        exact ⟨t, List.mem_cons_self _ _, Relation.ReflTransGen.head hstep hr⟩
      · exact ⟨s, List.mem_cons_of_mem _ hrr, hr⟩

/-- Worklist invariant: every field reference out of a visited type is
either already visited or still pending on the stack. -/
def stackInv (env : Env) (visited : Finset String)
    (stack : List String) : Prop :=
  ∀ v ∈ visited, ∀ y ∈ nestedRecNames env v, y ∈ visited ∨ y ∈ stack

/-- Under the invariant, everything reachable from a visited or pending
name is either visited already or eventually yielded. -/
theorem iterAux_complete (env : Env) :
    ∀ (visited : Finset String) (stack : List String),
      stackInv env visited stack →
      ∀ (s x : String),
        Relation.ReflTransGen (fun a b => b ∈ nestedRecNames env a) s x →
        s ∈ visited ∨ s ∈ stack →
        x ∈ visited ∨ x ∈ iterAux env visited stack := by
  intro visited stack
  induction visited, stack using iterAux.induct with
  | env => exact env
  | case1 visited =>
    intro hinv s x hr hs
    rcases hs with hs | hs
    swap
    · simp at hs
    induction hr with
    | refl => exact Or.inl hs
    | tail hab hstep ih2 =>
      rcases ih2 with hb | hb
      · rcases hinv _ hb _ hstep with hc | hc
        · exact Or.inl hc
        · simp at hc
      · rw [iterAux] at hb
        simp at hb
  | case2 visited t rest h ih =>
    intro hinv s x hr hs
    rw [iterAux, if_pos h]
    have hinv2 : stackInv env visited rest := by
      intro v hv y hy
      rcases hinv v hv y hy with h1 | h2
      · exact Or.inl h1
      · rcases List.mem_cons.mp h2 with rfl | h3
        · exact Or.inl h
        · exact Or.inr h3
    refine ih hinv2 s x hr ?_
    rcases hs with h1 | h2
    · exact Or.inl h1
    · rcases List.mem_cons.mp h2 with rfl | h3
      · exact Or.inl h
      · exact Or.inr h3
  | case3 visited t rest h ih =>
    intro hinv s x hr hs
    rw [iterAux, if_neg h]
    have hinv2 : stackInv env (insert t visited)
        (((nestedRecNames env t).filter
            (fun s => decide (s ∉ insert t visited))) ++ rest) := by
      intro v hv y hy
      rcases Finset.mem_insert.mp hv with rfl | hv2
      · by_cases hyv : y ∈ insert v visited
        · exact Or.inl hyv
        · refine Or.inr (List.mem_append.mpr (Or.inl ?_))
          refine List.mem_filter.mpr ⟨hy, ?_⟩
          simpa using hyv
      · rcases hinv v hv2 y hy with h1 | h2
        · exact Or.inl (Finset.mem_insert_of_mem h1)
        · rcases List.mem_cons.mp h2 with rfl | h3
          · exact Or.inl (Finset.mem_insert_self _ _)
          · exact Or.inr (List.mem_append.mpr (Or.inr h3))
    have hs2 : s ∈ insert t visited ∨
        s ∈ (((nestedRecNames env t).filter
            (fun s => decide (s ∉ insert t visited))) ++ rest) := by
      rcases hs with h1 | h2
      · exact Or.inl (Finset.mem_insert_of_mem h1)
      · rcases List.mem_cons.mp h2 with rfl | h3
        · exact Or.inl (Finset.mem_insert_self _ _)
        · exact Or.inr (List.mem_append.mpr (Or.inr h3))
    rcases ih hinv2 s x hr hs2 with h1 | h2
    · rcases Finset.mem_insert.mp h1 with rfl | h3
      · exact Or.inr (List.mem_cons_self _ _)
      · exact Or.inl h3
    · exact Or.inr (List.mem_cons_of_mem _ h2)

/-- Membership characterization of `iter_dataclass_type`: a record type is
enumerated exactly when it is reachable from the root through field
references. -/
theorem iterTypes_mem_iff (env : Env) (root x : String) :
    x ∈ iterTypes env root ↔
      Relation.ReflTransGen (fun a b => b ∈ nestedRecNames env a) root x := by
  constructor
  · intro hx
    obtain ⟨s, hs, hr⟩ := iterAux_sound env ∅ [root] x hx
    rw [List.mem_singleton] at hs
    subst hs
    exact hr
  · intro hr
    have h2 := iterAux_complete env ∅ [root]
      (by intro v hv; simp at hv) root x hr
      (Or.inr (List.mem_singleton.mpr rfl))
    rcases h2 with h3 | h3
    · simp at h3
    · exact h3

/-- A duplicate-free list whose members are exactly `a` is `[a]`. -/
theorem eq_singleton_of_nodup_mem {l : List String} {a : String}
    (hn : l.Nodup) (hm : ∀ x, x ∈ l ↔ x = a) : l = [a] := by
  match l with
  | [] => exact absurd ((hm a).mpr rfl) (by simp)
  | [b] =>
    have hb := (hm b).mp (List.mem_singleton.mpr rfl)
    rw [hb]
  | b :: c :: rest =>
    have hb := (hm b).mp (by simp)
    have hc := (hm c).mp (by simp)
    rw [hb, hc] at hn
    simp at hn

/-- The self-referential schema of the spec example:
`class A: children: list[A]` — a record holding a sequence of itself. -/
def envSelf : Env :=
  [("A", ⟨[⟨"children", none, .tlist (.trec "A"), none⟩], false⟩)]

/-- C5: enumerating nested record types terminates and is duplicate-free.
`iter_dataclass_type` is a total function in this embedding (its
termination is proved, not assumed); it yields each name at most once; a
name is yielded exactly when it is reachable from the root through the
one-level field scan; and on the self-referential type `A` holding
`list[A]` the enumeration is exactly `[A]` — one entry, itself. -/
theorem c5_nested_type_enumeration :
    (∀ (env : Env) (root : String), (iterTypes env root).Nodup) ∧
    (∀ (env : Env) (root x : String),
      x ∈ iterTypes env root ↔
        Relation.ReflTransGen (fun a b => b ∈ nestedRecNames env a) root x) ∧
    iterTypes envSelf "A" = ["A"] := by
  refine ⟨fun env root => iterTypes_nodup_aux env ∅ [root],
    iterTypes_mem_iff, ?_⟩
  refine eq_singleton_of_nodup_mem (iterTypes_nodup_aux envSelf ∅ ["A"]) ?_
  intro x
  rw [iterTypes_mem_iff]
  constructor
  · intro hr
    induction hr with
    | refl => rfl
    | tail hab hstep ih =>
      rw [ih] at hstep
      have hn : nestedRecNames envSelf "A" = ["A"] := rfl
      rw [hn] at hstep
      exact List.mem_singleton.mp hstep
  · rintro rfl
    exact Relation.ReflTransGen.refl

end Eyconf


namespace Eyconf

/-- Field tables for which alias resolution is unambiguous: attribute
names are distinct, an aliased field's alias resolves back to that field
(no later field shadows it), and a plain field's name is not captured by
any alias. -/
def WFFields (fs : List FieldDef) : Bool :=
  decide ((fs.map (fun f => f.name)).Nodup) &&
  fs.all (fun f =>
    match f.aliasName with
    | some a => aliasToName fs a == some f.name
    | none => (aliasToName fs f.name).isNone)

/-- Well-typed record instances: each value matches its resolved type,
record instances carry exactly the declared attributes in declaration
order over a well-formed field table, and union fields are either an
absence marker (`Optional` holding `None`) or a union with a single
non-absence alternative holding a value of that alternative. -/
inductive WT (env : Env) : Ty → Value → Prop where
  | wint (n : Int) : WT env .tint (.vint n)
  | wstr (s : String) : WT env .tstr (.vstr s)
  | wbool (b : Bool) : WT env .tbool (.vbool b)
  | wlist (ty : Ty) (es : List Value) :
      (∀ v ∈ es, WT env ty v) → WT env (.tlist ty) (.vlist es)
  | wdict (ty : Ty) (es : List (String × Value)) :
      (∀ kv ∈ es, WT env ty kv.2) → WT env (.tdict ty) (.vdict es)
  | wunionNull (args : List Ty) :
      args.any Ty.isNone = true → WT env (.tunion args) .vnull
  | wunionOne (args : List Ty) (t : Ty) (v : Value) :
      args.filter (fun x => ! x.isNone) = [t] →
      WT env t v → WT env (.tunion args) v
  | wrec (tn : String) (rd : RecordDef) (flds : List (String × Value)) :
      lookupRec env tn = some rd →
      WFFields rd.fields = true →
      flds.map Prod.fst = rd.fields.map (fun f => f.name) →
      (∀ p ∈ rd.fields.zip flds, WT env p.1.ty p.2.2) →
      WT env (.trec tn) (.vrecord tn flds)

/-- Encoding record attributes preserves lookups, encoding the value. -/
theorem alookup_encodeEntries (env : Env) :
    ∀ (flds : List (String × Value)) (k : String),
      alookup (encodeEntries env flds) k
        = (alookup flds k).map (encodeVal env) := by
  intro flds
  induction flds with
  | nil => intro k; simp [encodeEntries, alookup]
  | cons hd tl ih =>
    intro k
    obtain ⟨k1, v1⟩ := hd
    simp only [encodeEntries, alookup]
    by_cases hk : k1 = k
    · simp [hk]
    · simp [hk, ih]

/-- Encoding record attributes preserves the key list. -/
theorem encodeEntries_keys (env : Env) :
    ∀ (flds : List (String × Value)),
      (encodeEntries env flds).map Prod.fst = flds.map Prod.fst := by
  intro flds
  induction flds with
  | nil => simp [encodeEntries]
  | cons hd tl ih =>
    obtain ⟨k1, v1⟩ := hd
    simp only [encodeEntries, List.map_cons, ih]

/-- Membership gives the declared-name test. -/
theorem isFieldName_of_mem {fs : List FieldDef} {f : FieldDef} (h : f ∈ fs) :
    isFieldName fs f.name = true := by
  simp only [isFieldName, List.any_eq_true]
  exact ⟨f, h, by simp⟩

/-- With distinct names, the declared-type table returns the member's own
type. -/
theorem fieldTyAnn_of_mem :
    ∀ {fs : List FieldDef} {f : FieldDef},
      (fs.map (fun g => g.name)).Nodup → f ∈ fs →
      fieldTyAnn fs f.name = some f.ty := by
  intro fs
  induction fs with
  | nil => intro f _ h; simp at h
  | cons g tl ih =>
    intro f hnd hmem
    simp only [List.map_cons, List.nodup_cons] at hnd
    obtain ⟨hg, hnd2⟩ := hnd
    rcases List.mem_cons.mp hmem with rfl | hmem2
    · simp [fieldTyAnn]
    · have hne : g.name ≠ f.name := by
        intro he
        exact hg (he ▸ List.mem_map_of_mem _ hmem2)
      simp only [fieldTyAnn]
      rw [if_neg hne]
      exact ih hnd2 hmem2

/-- Setting an absent key appends it. -/
theorem aset_eq_append {α : Type} :
    ∀ (l : List (String × α)) (k : String) (v : α),
      k ∉ l.map Prod.fst → aset l k v = l ++ [(k, v)] := by
  intro l
  induction l with
  | nil => intro k v _; rfl
  | cons hd tl ih =>
    intro k v h
    simp only [List.map_cons, List.mem_cons] at h
    push_neg at h
    obtain ⟨h1, h2⟩ := h
    simp only [aset]
    rw [if_neg (fun he => h1 he.symm), ih k v h2]
    rfl

/-- Only `None` encodes to `null`. -/
theorem encodeVal_eq_dnull {env : Env} {v : Value}
    (h : encodeVal env v = .dnull) : v = .vnull := by
  cases v with
  | vnull => rfl
  | vint n => simp [encodeVal] at h
  | vstr s => simp [encodeVal] at h
  | vbool b => simp [encodeVal] at h
  | vrecord tn flds => simp [encodeVal] at h
  | vlist es => simp [encodeVal] at h
  | vdict es => simp [encodeVal] at h

/-- filterMap only depends on the function's values on members. -/
theorem filterMap_congr_mem {α β : Type} {f g : α → Option β} :
    ∀ {l : List α}, (∀ a ∈ l, f a = g a) →
      l.filterMap f = l.filterMap g := by
  intro l
  induction l with
  | nil => intro h; rfl
  | cons a tl ih =>
    intro h
    rw [List.filterMap_cons, List.filterMap_cons, h a (by simp),
      ih (fun b hb => h b (by simp [hb]))]

/-- Rebuilding aligned keys reproduces the attribute list. -/
theorem zipWith_name_eq :
    ∀ (fs : List FieldDef) (flds : List (String × Value)),
      flds.map Prod.fst = fs.map (fun f => f.name) →
      List.zipWith (fun (f : FieldDef) (p : String × Value) => (f.name, p.2))
        fs flds = flds := by
  intro fs
  induction fs with
  | nil =>
    intro flds h
    simp only [List.map_nil, List.map_eq_nil_iff] at h
    subst h
    rfl
  | cons f tl ih =>
    intro flds h
    cases flds with
    | nil => simp at h
    | cons p ps =>
      simp only [List.map_cons, List.cons.injEq] at h
      obtain ⟨h1, h2⟩ := h
      simp only [List.zipWith_cons_cons]
      rw [ih ps h2]
      rw [← h1]


/-- The declared part of an aligned arrangement pairs each field's emitted
key with its encoded attribute value, in declaration order. -/
theorem arrange_declared (env : Env) :
    ∀ (fs : List FieldDef) (flds : List (String × Value)),
      flds.map Prod.fst = fs.map (fun f => f.name) →
      (fs.map (fun f => f.name)).Nodup →
      fs.filterMap (fun f =>
          (alookup (encodeEntries env flds) f.name).map
            (fun d => (emitKey f, d)))
        = List.zipWith (fun f p => (emitKey f, encodeVal env p.2)) fs flds := by
  intro fs
  induction fs with
  | nil => intro flds h hnd; simp
  | cons f tl ih =>
    intro flds h hnd
    cases flds with
    | nil => simp at h
    | cons p ps =>
      simp only [List.map_cons, List.cons.injEq] at h
      obtain ⟨h1, h2⟩ := h
      simp only [List.map_cons, List.nodup_cons] at hnd
      obtain ⟨hnm, hnd2⟩ := hnd
      have hhead : alookup (encodeEntries env (p :: ps)) f.name
          = some (encodeVal env p.2) := by
        rw [alookup_encodeEntries]
        obtain ⟨pk, pv⟩ := p
        simp only at h1
        simp [alookup, h1]
      simp only [List.filterMap_cons, hhead, Option.map_some, List.zipWith_cons_cons]
      have htail : tl.filterMap (fun g =>
            (alookup (encodeEntries env (p :: ps)) g.name).map
              (fun d => (emitKey g, d)))
          = tl.filterMap (fun g =>
            (alookup (encodeEntries env ps) g.name).map
              (fun d => (emitKey g, d))) := by
        refine filterMap_congr_mem ?_
        intro g hg
        have hne : f.name ≠ g.name :=
          fun he => hnm (he ▸ List.mem_map_of_mem _ hg)
        rw [alookup_encodeEntries, alookup_encodeEntries]
        obtain ⟨pk, pv⟩ := p
        simp only at h1
        simp [alookup, h1, hne]
      rw [htail, ih ps h2 hnd2]
      rfl

/-- Aligned instances produce no dynamic-attribute entries. -/
theorem arrange_extras (env : Env) (fs : List FieldDef)
    (flds : List (String × Value))
    (h : flds.map Prod.fst = fs.map (fun f => f.name)) :
    (encodeEntries env flds).filter
      (fun kv => !(isFieldName fs kv.1) && !(kv.1.startsWith "_")) = [] := by
  rw [List.filter_eq_nil_iff]
  intro kv hkv
  have hk : kv.1 ∈ flds.map Prod.fst := by
    rw [← encodeEntries_keys env flds]
    exact List.mem_map_of_mem _ hkv
  rw [h] at hk
  obtain ⟨f, hf, hfe⟩ := List.mem_map.mp hk
  have hfn : isFieldName fs kv.1 = true := by
    rw [← hfe]
    exact isFieldName_of_mem hf
  simp [hfn]

/-- Encoding an aligned record instance arranges exactly the declared
fields: emitted key and encoded value, in declaration order. -/
theorem arrangeRecord_aligned (env : Env) (fs : List FieldDef)
    (flds : List (String × Value))
    (h : flds.map Prod.fst = fs.map (fun f => f.name))
    (hnd : (fs.map (fun f => f.name)).Nodup) :
    arrangeRecord fs (encodeEntries env flds)
      = List.zipWith (fun f p => (emitKey f, encodeVal env p.2)) fs flds := by
  unfold arrangeRecord
  rw [arrange_declared env fs flds h hnd, arrange_extras env fs flds h]
  simp

/-- Folding `aset` over fresh distinct keys appends them in order. -/
theorem foldl_aset_append {α : Type} :
    ∀ (ps : List (String × α)) (acc : List (String × α)),
      (ps.map Prod.fst).Nodup →
      (∀ k ∈ ps.map Prod.fst, k ∉ acc.map Prod.fst) →
      ps.foldl (fun a p => aset a p.1 p.2) acc = acc ++ ps := by
  intro ps
  induction ps with
  | nil => intro acc _ _; simp
  | cons p tl ih =>
    intro acc hnd hdis
    simp only [List.map_cons, List.nodup_cons] at hnd
    obtain ⟨hp, hnd2⟩ := hnd
    simp only [List.foldl_cons]
    rw [aset_eq_append acc p.1 p.2 (hdis p.1 (by simp))]
    rw [ih (acc ++ [(p.1, p.2)]) hnd2 (by
      intro k hk
      simp only [List.map_append, List.mem_append, List.map_cons,
        List.map_nil]
      push_neg
      refine ⟨hdis k (by simp [hk]), ?_⟩
      simp only [List.mem_singleton]
      intro he
      exact hp (he ▸ hk))]
    simp

/-- The constructor loop only reads `found` through lookups of declared
names. -/
theorem go_congr :
    ∀ (fs : List FieldDef) (found found' : List (String × Value)),
      (∀ f ∈ fs, alookup found f.name = alookup found' f.name) →
      constructRecord.go found fs = constructRecord.go found' fs := by
  intro fs
  induction fs with
  | nil => intro found found' _; rfl
  | cons f tl ih =>
    intro found found' h
    simp only [constructRecord.go]
    rw [h f (by simp), ih found found' (fun g hg => h g (by simp [hg]))]

/-- On an aligned attribute list the constructor reproduces the instance's
attributes. -/
theorem go_self :
    ∀ (fs : List FieldDef) (flds : List (String × Value)),
      flds.map Prod.fst = fs.map (fun f => f.name) →
      (fs.map (fun f => f.name)).Nodup →
      constructRecord.go flds fs = some flds := by
  intro fs
  induction fs with
  | nil =>
    intro flds h _
    simp only [List.map_nil, List.map_eq_nil_iff] at h
    subst h
    rfl
  | cons f tl ih =>
    intro flds h hnd
    cases flds with
    | nil => simp at h
    | cons p ps =>
      simp only [List.map_cons, List.cons.injEq] at h
      obtain ⟨h1, h2⟩ := h
      simp only [List.map_cons, List.nodup_cons] at hnd
      obtain ⟨hnm, hnd2⟩ := hnd
      have hcongr : constructRecord.go (p :: ps) tl
          = constructRecord.go ps tl := by
        refine go_congr tl (p :: ps) ps ?_
        intro g hg
        have hne : f.name ≠ g.name :=
          fun he => hnm (he ▸ List.mem_map_of_mem _ hg)
        obtain ⟨pk, pv⟩ := p
        simp only at h1
        simp [alookup, h1, hne]
      simp only [constructRecord.go]
      have hlook : alookup (p :: ps) f.name = some p.2 := by
        obtain ⟨pk, pv⟩ := p
        simp only at h1
        simp [alookup, h1]
      rw [hlook, hcongr, ih ps h2 hnd2]
      obtain ⟨pk, pv⟩ := p
      simp only at h1
      rw [h1]

/-- `constructRecord` on an aligned attribute list rebuilds the instance. -/
theorem constructRecord_self (tn : String) (fs : List FieldDef)
    (flds : List (String × Value))
    (h : flds.map Prod.fst = fs.map (fun f => f.name))
    (hnd : (fs.map (fun f => f.name)).Nodup) :
    constructRecord tn fs flds = .ok (.vrecord tn flds) := by
  unfold constructRecord
  rw [go_self fs flds h hnd]


/-- Unpacking: distinct names. -/
theorem WFFields_nodup {fs : List FieldDef} (h : WFFields fs = true) :
    (fs.map (fun f => f.name)).Nodup := by
  simp only [WFFields, Bool.and_eq_true, decide_eq_true_eq] at h
  exact h.1

/-- Unpacking: a member's emitted key resolves back to the member. -/
theorem WFFields_resolve {fs : List FieldDef} {f : FieldDef}
    (h : WFFields fs = true) (hf : f ∈ fs) :
    aliasToName fs (emitKey f) = some f.name ∨
      (aliasToName fs (emitKey f) = none ∧ emitKey f = f.name) := by
  simp only [WFFields, Bool.and_eq_true, decide_eq_true_eq,
    List.all_eq_true] at h
  have h2 := h.2 f hf
  cases ha : f.aliasName with
  | some a =>
    left
    have he : emitKey f = a := by simp [emitKey, ha]
    rw [he]
    simp [ha] at h2
    exact h2
  | none =>
    right
    have he : emitKey f = f.name := by simp [emitKey, ha]
    rw [he]
    simp [ha] at h2
    exact ⟨h2, rfl⟩

/-- A finite family of eventually-true fuel properties is uniformly
eventually true. -/
theorem exists_uniform {α : Type} (P : α → Nat → Prop) :
    ∀ (ps : List α), (∀ p ∈ ps, ∃ f0, ∀ fuel, f0 ≤ fuel → P p fuel) →
      ∃ F, ∀ fuel, F ≤ fuel → ∀ p ∈ ps, P p fuel := by
  intro ps
  induction ps with
  | nil => intro _; exact ⟨0, by simp⟩
  | cons p tl ih =>
    intro h
    obtain ⟨f0, hf0⟩ := h p (by simp)
    obtain ⟨F, hF⟩ := ih (fun q hq => h q (by simp [hq]))
    refine ⟨max f0 F, ?_⟩
    intro fuel hfuel q hq
    rcases List.mem_cons.mp hq with rfl | hq2
    · exact hf0 fuel (le_trans (le_max_left _ _) hfuel)
    · exact hF fuel (le_trans (le_max_right _ _) hfuel) q hq2

/-- Unfolding of the field loop at successor fuel on a nonempty entry list
(definitional). -/
theorem decodeFields_succ_cons (env : Env) (allowAdd : Bool) (fuel : Nat)
    (fs : List FieldDef) (k : String) (v : Data)
    (rest : List (String × Data)) (found : List (String × Value))
    (additional : List (String × Data)) :
    decodeFields env allowAdd (fuel + 1) fs ((k, v) :: rest) found additional =
    (match aliasToName fs k with
     | some name =>
       (match fieldTyAnn fs name with
        | some ty =>
          (decodeD env allowAdd fuel ty v) >>= (fun dv =>
            decodeFields env allowAdd fuel fs rest (aset found name dv)
              additional)
        | none => .error (.keyError name))
     | none =>
       if isFieldName fs k then
         (match fieldTyAnn fs k with
          | some ty =>
            (decodeD env allowAdd fuel ty v) >>= (fun dv =>
              decodeFields env allowAdd fuel fs rest (aset found k dv)
                additional)
          | none => .error (.keyError k))
       else
         decodeFields env allowAdd fuel fs rest found
           (additional ++ [(k, v)])) := rfl

/-- Primitive passthrough reductions (definitional plus one structural
rewrite). -/
theorem dataToValue_dint (n : Int) : dataToValue (.dint n) = .vint n := by
  simp [dataToValue]

/-- Unfolding of the union branch on a `null` input (definitional). -/
theorem decodeD_union_dnull (env : Env) (allowAdd : Bool) (fuel : Nat)
    (args : List Ty) :
    decodeD env allowAdd (fuel + 1) (.tunion args) .dnull =
    (if args.any Ty.isNone then .ok .vnull
     else decodeAlts env allowAdd fuel args .dnull) := rfl

/-- Unfolding of the union branch on a non-`null` input. -/
theorem decodeD_union_of_ne (env : Env) (allowAdd : Bool) (fuel : Nat)
    (args : List Ty) (data : Data) (h : data ≠ .dnull) :
    decodeD env allowAdd (fuel + 1) (.tunion args) data =
      decodeAlts env allowAdd fuel args data := by
  cases data with
  | dnull => exact absurd rfl h
  | dint n => rfl
  | dstr s => rfl
  | dbool b => rfl
  | dlist l => rfl
  | dmap es => rfl

/-- The alternative loop on a union with a single non-absence alternative
returns that alternative's successful decode. -/
theorem decodeAlts_walk (env : Env) (allowAdd : Bool) (t : Ty) (data : Data)
    (v : Value) (F : Nat)
    (hdec : ∀ g, F ≤ g → decodeD env allowAdd g t data = .ok v) :
    ∀ (args : List Ty) (fuel : Nat),
      args.filter (fun x => ! x.isNone) = [t] →
      F + args.length < fuel →
      decodeAlts env allowAdd fuel args data = .ok v := by
  intro args
  induction args with
  | nil => intro fuel h _; simp at h
  | cons a tl ih =>
    intro fuel hfil hf
    obtain ⟨g, rfl⟩ : ∃ g, fuel = g + 1 := ⟨fuel - 1, by omega⟩
    rw [show decodeAlts env allowAdd (g + 1) (a :: tl) data =
      (if a.isNone then decodeAlts env allowAdd g tl data
       else match decodeD env allowAdd g a data with
         | .ok w => .ok w
         | .error e =>
           if e.unionCatchable then decodeAlts env allowAdd g tl data
           else .error e) from rfl]
    rw [List.filter_cons] at hfil
    by_cases ha : a.isNone
    · rw [if_pos ha]
      simp only [ha, Bool.not_true, Bool.false_eq_true, if_false] at hfil
      exact ih g hfil (by simp at hf; omega)
    · rw [if_neg ha]
      simp only [Bool.not_eq_true] at ha
      simp only [ha, Bool.not_false, if_true, List.cons.injEq] at hfil
      obtain ⟨rfl, h2⟩ := hfil
      rw [hdec g (by simp at hf; omega)]

/-- Elementwise decoding inverts elementwise encoding. -/
theorem decodeList_spec (env : Env) (allowAdd : Bool) (ty : Ty) :
    ∀ (es : List Value) (F fuel : Nat),
      (∀ v ∈ es, ∀ g, F ≤ g →
        decodeD env allowAdd g ty (encodeVal env v) = .ok v) →
      F + es.length < fuel →
      decodeList env allowAdd fuel ty (encodeList env es) = .ok es := by
  intro es
  induction es with
  | nil =>
    intro F fuel _ hf
    obtain ⟨g, rfl⟩ : ∃ g, fuel = g + 1 := ⟨fuel - 1, by omega⟩
    simp only [encodeList]
    rfl
  | cons v tl ih =>
    intro F fuel h hf
    obtain ⟨g, rfl⟩ : ∃ g, fuel = g + 1 := ⟨fuel - 1, by omega⟩
    simp only [encodeList]
    rw [show decodeList env allowAdd (g + 1) ty
        (encodeVal env v :: encodeList env tl) =
      ((decodeD env allowAdd g ty (encodeVal env v)) >>= fun w =>
        (decodeList env allowAdd g ty (encodeList env tl)) >>= fun ws =>
          .ok (w :: ws)) from rfl]
    rw [h v (by simp) g (by simp at hf; omega)]
    rw [show ((Except.ok v : Except Err Value) >>= fun w =>
        (decodeList env allowAdd g ty (encodeList env tl)) >>= fun ws =>
          Except.ok (w :: ws)) =
      ((decodeList env allowAdd g ty (encodeList env tl)) >>= fun ws =>
        Except.ok (v :: ws)) from rfl]
    rw [ih F g (fun w hw => h w (by simp [hw])) (by simp at hf; omega)]
    rfl

/-- Valuewise decoding inverts valuewise encoding on mapping entries. -/
theorem decodeDictVals_spec (env : Env) (allowAdd : Bool) (ty : Ty) :
    ∀ (es : List (String × Value)) (F fuel : Nat),
      (∀ kv ∈ es, ∀ g, F ≤ g →
        decodeD env allowAdd g ty (encodeVal env kv.2) = .ok kv.2) →
      F + es.length < fuel →
      decodeDictVals env allowAdd fuel ty (encodeEntries' env es) = .ok es := by
  intro es
  induction es with
  | nil =>
    intro F fuel _ hf
    obtain ⟨g, rfl⟩ : ∃ g, fuel = g + 1 := ⟨fuel - 1, by omega⟩
    simp only [encodeEntries']
    rfl
  | cons kv tl ih =>
    intro F fuel h hf
    obtain ⟨g, rfl⟩ : ∃ g, fuel = g + 1 := ⟨fuel - 1, by omega⟩
    obtain ⟨k, v⟩ := kv
    simp only [encodeEntries']
    rw [show decodeDictVals env allowAdd (g + 1) ty
        ((k, encodeVal env v) :: encodeEntries' env tl) =
      ((decodeD env allowAdd g ty (encodeVal env v)) >>= fun w =>
        (decodeDictVals env allowAdd g ty (encodeEntries' env tl)) >>= fun ws =>
          .ok ((k, w) :: ws)) from rfl]
    rw [h (k, v) (by simp) g (by simp at hf; omega)]
    rw [show ((Except.ok v : Except Err Value) >>= fun w =>
        (decodeDictVals env allowAdd g ty (encodeEntries' env tl)) >>= fun ws =>
          Except.ok ((k, w) :: ws)) =
      ((decodeDictVals env allowAdd g ty (encodeEntries' env tl)) >>= fun ws =>
        Except.ok ((k, v) :: ws)) from rfl]
    rw [ih F g (fun w hw => h w (by simp [hw])) (by simp at hf; omega)]
    rfl


/-- zipWith as a map over the zip. -/
theorem zipWith_eq_map_zip {α β γ : Type} (f : α → β → γ) :
    ∀ (l1 : List α) (l2 : List β),
      List.zipWith f l1 l2 = (l1.zip l2).map (fun p => f p.1 p.2) := by
  intro l1
  induction l1 with
  | nil => intro l2; simp
  | cons a tl ih =>
    intro l2
    cases l2 with
    | nil => simp
    | cons b tl2 => simp [ih]

/-- Folding `aset` of field-keyed values over fresh distinct names appends
the named entries in order. -/
theorem foldl_aset_name_append :
    ∀ (ps : List (FieldDef × Value)) (acc : List (String × Value)),
      (ps.map (fun p => p.1.name)).Nodup →
      (∀ k ∈ ps.map (fun p => p.1.name), k ∉ acc.map Prod.fst) →
      ps.foldl (fun a p => aset a p.1.name p.2) acc
        = acc ++ ps.map (fun p => (p.1.name, p.2)) := by
  intro ps
  induction ps with
  | nil => intro acc _ _; simp
  | cons p tl ih =>
    intro acc hnd hdis
    simp only [List.map_cons, List.nodup_cons] at hnd
    obtain ⟨hp, hnd2⟩ := hnd
    simp only [List.foldl_cons]
    rw [aset_eq_append acc p.1.name p.2 (hdis p.1.name (by simp))]
    rw [ih (acc ++ [(p.1.name, p.2)]) hnd2 (by
      intro k hk
      simp only [List.map_append, List.mem_append, List.map_cons,
        List.map_nil]
      push_neg
      refine ⟨hdis k (by simp [hk]), ?_⟩
      simp only [List.mem_singleton]
      intro he
      exact hp (he ▸ hk))]
    simp

/-- Unfolding of the record branch of the decoder (definitional). -/
theorem decodeD_rec (env : Env) (allowAdd : Bool) (fuel : Nat) (n : String)
    (entries : List (String × Data)) :
    decodeD env allowAdd (fuel + 1) (.trec n) (.dmap entries) =
    (match lookupRec env n with
     | some rd =>
       (decodeFields env allowAdd fuel rd.fields entries [] []) >>= (fun pr =>
         (constructRecord n rd.fields pr.1) >>= (fun res =>
           if allowAdd then .ok (setExtras res pr.2)
           else if pr.2.isEmpty then .ok res
           else .error (.valueError ("found additional fields in " ++ n))))
     | none => .ok (dataToValue (.dmap entries))) := rfl

/-- The field loop inverts an aligned arrangement: every emitted entry
resolves back to its own field, decodes to the original attribute value,
and no entry lands in the additional list. -/
theorem decodeFields_round (env : Env) (allowAdd : Bool)
    (fs : List FieldDef) (hWF : WFFields fs = true) :
    ∀ (ps : List (FieldDef × Value)) (found : List (String × Value))
      (F fuel : Nat),
      (∀ p ∈ ps, p.1 ∈ fs) →
      (∀ p ∈ ps, ∀ g, F ≤ g →
        decodeD env allowAdd g p.1.ty (encodeVal env p.2) = .ok p.2) →
      F + ps.length < fuel →
      decodeFields env allowAdd fuel fs
          (ps.map (fun p => (emitKey p.1, encodeVal env p.2))) found []
        = .ok (ps.foldl (fun acc p => aset acc p.1.name p.2) found, []) := by
  intro ps
  induction ps with
  | nil =>
    intro found F fuel _ _ hfuel
    obtain ⟨g, rfl⟩ : ∃ g, fuel = g + 1 := ⟨fuel - 1, by omega⟩
    rfl
  | cons p tl ih =>
    intro found F fuel hmem hdec hfuel
    obtain ⟨g, rfl⟩ : ∃ g, fuel = g + 1 := ⟨fuel - 1, by omega⟩
    have hp : p.1 ∈ fs := hmem p (by simp)
    have hdg : decodeD env allowAdd g p.1.ty (encodeVal env p.2) = .ok p.2 :=
      hdec p (by simp) g (by simp at hfuel; omega)
    have hty : fieldTyAnn fs p.1.name = some p.1.ty :=
      fieldTyAnn_of_mem (WFFields_nodup hWF) hp
    have hrec := ih (aset found p.1.name p.2) F g
      (fun q hq => hmem q (by simp [hq]))
      (fun q hq => hdec q (by simp [hq]))
      (by simp at hfuel ⊢; omega)
    simp only [List.map_cons, List.foldl_cons]
    rw [decodeFields_succ_cons]
    rcases WFFields_resolve hWF hp with hres | ⟨hres, hemit⟩
    · simp only [hres, hty, hdg]
      exact hrec
    · have hres2 : aliasToName fs p.1.name = none := by
        rw [← hemit]
        exact hres
      simp only [hemit, hres2, isFieldName_of_mem hp, if_true, hty, hdg]
      exact hrec

/-- Decoding inverts encoding on every well-typed value, for every
sufficiently large fuel. -/
theorem decode_encode_WT (env : Env) (allowAdd : Bool) :
    ∀ (ty : Ty) (v : Value), WT env ty v →
      ∃ f0 : Nat, ∀ fuel, f0 ≤ fuel →
        decodeD env allowAdd fuel ty (encodeVal env v) = .ok v := by
  intro ty v h
  induction h with
  | wint n =>
    refine ⟨1, ?_⟩
    intro fuel hf
    obtain ⟨g, rfl⟩ : ∃ g, fuel = g + 1 := ⟨fuel - 1, by omega⟩
    simp only [encodeVal]
    rw [show decodeD env allowAdd (g + 1) .tint (.dint n)
      = .ok (dataToValue (.dint n)) from rfl]
    simp [dataToValue]
  | wstr t =>
    refine ⟨1, ?_⟩
    intro fuel hf
    obtain ⟨g, rfl⟩ : ∃ g, fuel = g + 1 := ⟨fuel - 1, by omega⟩
    simp only [encodeVal]
    rw [show decodeD env allowAdd (g + 1) .tstr (.dstr t)
      = .ok (dataToValue (.dstr t)) from rfl]
    simp [dataToValue]
  | wbool b =>
    refine ⟨1, ?_⟩
    intro fuel hf
    obtain ⟨g, rfl⟩ : ∃ g, fuel = g + 1 := ⟨fuel - 1, by omega⟩
    simp only [encodeVal]
    rw [show decodeD env allowAdd (g + 1) .tbool (.dbool b)
      = .ok (dataToValue (.dbool b)) from rfl]
    simp [dataToValue]
  | wlist ty2 es hall ih =>
    obtain ⟨F, hF⟩ := exists_uniform
      (fun (w : Value) fuel =>
        decodeD env allowAdd fuel ty2 (encodeVal env w) = .ok w) es ih
    refine ⟨F + es.length + 2, ?_⟩
    intro fuel hfuel
    obtain ⟨g, rfl⟩ : ∃ g, fuel = g + 1 := ⟨fuel - 1, by omega⟩
    simp only [encodeVal]
    rw [show decodeD env allowAdd (g + 1) (.tlist ty2)
        (.dlist (encodeList env es)) =
      ((decodeList env allowAdd g ty2 (encodeList env es)) >>= fun vs =>
        .ok (.vlist vs)) from rfl]
    rw [decodeList_spec env allowAdd ty2 es F g
      (fun w hw g2 hg2 => hF g2 hg2 w hw) (by omega)]
    rfl
  | wdict ty2 es hall ih =>
    obtain ⟨F, hF⟩ := exists_uniform
      (fun (kv : String × Value) fuel =>
        decodeD env allowAdd fuel ty2 (encodeVal env kv.2) = .ok kv.2) es ih
    refine ⟨F + es.length + 2, ?_⟩
    intro fuel hfuel
    obtain ⟨g, rfl⟩ : ∃ g, fuel = g + 1 := ⟨fuel - 1, by omega⟩
    simp only [encodeVal]
    rw [show decodeD env allowAdd (g + 1) (.tdict ty2)
        (.dmap (encodeEntries' env es)) =
      ((decodeDictVals env allowAdd g ty2 (encodeEntries' env es)) >>= fun vs =>
        .ok (.vdict vs)) from rfl]
    rw [decodeDictVals_spec env allowAdd ty2 es F g
      (fun kv hkv g2 hg2 => hF g2 hg2 kv hkv) (by omega)]
    rfl
  | wunionNull args hany =>
    refine ⟨1, ?_⟩
    intro fuel hf
    obtain ⟨g, rfl⟩ : ∃ g, fuel = g + 1 := ⟨fuel - 1, by omega⟩
    simp only [encodeVal]
    rw [decodeD_union_dnull, if_pos hany]
  | wunionOne args t v2 hfil hwt ih =>
    obtain ⟨f0, hf0⟩ := ih
    refine ⟨f0 + args.length + 2, ?_⟩
    intro fuel hfuel
    obtain ⟨g, rfl⟩ : ∃ g, fuel = g + 1 := ⟨fuel - 1, by omega⟩
    by_cases hd : encodeVal env v2 = .dnull
    · have hv := encodeVal_eq_dnull hd
      subst hv
      rw [hd, decodeD_union_dnull]
      by_cases hany : args.any Ty.isNone
      · rw [if_pos hany]
      · rw [if_neg hany]
        refine decodeAlts_walk env allowAdd t .dnull .vnull f0
          (fun g2 hg2 => by rw [← hd]; exact hf0 g2 hg2) args g hfil (by omega)
    · rw [decodeD_union_of_ne env allowAdd g args _ hd]
      exact decodeAlts_walk env allowAdd t (encodeVal env v2) v2 f0 hf0
        args g hfil (by omega)
  | wrec tn rd flds hlook hWF halign hall ih =>
    obtain ⟨F, hF⟩ := exists_uniform
      (fun (p : FieldDef × (String × Value)) fuel =>
        decodeD env allowAdd fuel p.1.ty (encodeVal env p.2.2) = .ok p.2.2)
      (rd.fields.zip flds) ih
    refine ⟨F + flds.length + 2, ?_⟩
    intro fuel hfuel
    obtain ⟨g, rfl⟩ : ∃ g, fuel = g + 1 := ⟨fuel - 1, by omega⟩
    have hnd := WFFields_nodup hWF
    have hlen : rd.fields.length = flds.length := by
      have h2 := congrArg List.length halign
      simpa using h2.symm
    simp only [encodeVal]
    rw [show fieldsOf env tn = rd.fields from by simp [fieldsOf, hlook]]
    rw [arrangeRecord_aligned env rd.fields flds halign hnd]
    rw [zipWith_eq_map_zip]
    rw [decodeD_rec]
    simp only [hlook]
    have hmap : (rd.fields.zip flds).map
          (fun p => (emitKey p.1, encodeVal env p.2.2))
        = ((rd.fields.zip flds).map (fun q => (q.1, q.2.2))).map
            (fun p => (emitKey p.1, encodeVal env p.2)) := by
      rw [List.map_map]
      rfl
    rw [hmap]
    have hpl : ((rd.fields.zip flds).map (fun q => (q.1, q.2.2))).length
        = flds.length := by
      simp [hlen]
    rw [decodeFields_round env allowAdd rd.fields hWF
      ((rd.fields.zip flds).map (fun q => (q.1, q.2.2))) [] F g
      (by
        intro q hq
        obtain ⟨⟨f1, pr⟩, hp, rfl⟩ := List.mem_map.mp hq
        exact (List.of_mem_zip hp).1)
      (by
        intro q hq g2 hg2
        obtain ⟨p, hp, rfl⟩ := List.mem_map.mp hq
        exact hF g2 hg2 p hp)
      (by rw [hpl]; omega)]
    have hzipfst : (rd.fields.zip flds).map Prod.fst = rd.fields :=
      List.map_fst_zip rd.fields flds (le_of_eq hlen)
    have hfold : ((rd.fields.zip flds).map (fun q => (q.1, q.2.2))).foldl
        (fun acc p => aset acc p.1.name p.2) [] = flds := by
      rw [foldl_aset_name_append]
      · rw [List.nil_append, List.map_map]
        have hzw : ((rd.fields.zip flds).map
              (fun q => ((q.1, q.2.2).1.name, (q.1, q.2.2).2)))
            = List.zipWith
                (fun (f : FieldDef) (p : String × Value) => (f.name, p.2))
                rd.fields flds := by
          rw [zipWith_eq_map_zip]
        rw [show ((fun p => (p.1.name, p.2)) ∘ (fun (q : FieldDef × (String × Value)) => (q.1, q.2.2)))
            = (fun (q : FieldDef × (String × Value)) => (q.1.name, q.2.2)) from rfl]
        rw [show ((rd.fields.zip flds).map
              (fun (q : FieldDef × (String × Value)) => (q.1.name, q.2.2)))
            = List.zipWith
                (fun (f : FieldDef) (p : String × Value) => (f.name, p.2))
                rd.fields flds from by rw [zipWith_eq_map_zip]]
        exact zipWith_name_eq rd.fields flds halign
      · rw [List.map_map]
        rw [show ((fun (p : FieldDef × Value) => p.1.name) ∘ (fun (q : FieldDef × (String × Value)) => (q.1, q.2.2)))
            = (fun (q : FieldDef × (String × Value)) => q.1.name) from rfl]
        rw [show ((rd.fields.zip flds).map
              (fun (q : FieldDef × (String × Value)) => q.1.name))
            = ((rd.fields.zip flds).map Prod.fst).map (fun f => f.name) from by
          rw [List.map_map]; rfl]
        rw [hzipfst]
        exact hnd
      · intro k hk
        simp
    rw [hfold]
    rw [show ((Except.ok ((flds : List (String × Value)), ([] : List (String × Data))) :
        Except Err (List (String × Value) × List (String × Data))) >>= (fun pr =>
      (constructRecord tn rd.fields pr.1) >>= (fun res =>
        if allowAdd then .ok (setExtras res pr.2)
        else if pr.2.isEmpty then .ok res
        else .error (.valueError ("found additional fields in " ++ tn))))) =
      ((constructRecord tn rd.fields flds) >>= (fun res =>
        if allowAdd then .ok (setExtras res [])
        else if ([] : List (String × Data)).isEmpty then .ok res
        else .error (.valueError ("found additional fields in " ++ tn)))) from rfl]
    rw [constructRecord_self tn rd.fields flds halign hnd]
    cases allowAdd with
    | true => rfl
    | false => rfl


/-- C3 amended: the encode/decode round trip holds for well-typed record
instances whose union-typed attributes are optionals (a single non-absence
alternative): `dataclass_from_dict(type(r), asdict_with_aliases(r))`
reproduces `r` field for field, with alias keys emitted by the encoder
resolved back to attribute names by the decoder, through nested records,
sequences, and mappings, once the fuel (Python call stack) is large
enough.  For unions with several overlapping alternatives first-wins
decoding can change the value (see the counterexample), so the claim is
restricted to the optional shape this code base uses. -/
theorem c3_roundtrip_amended (env : Env) (allowAdd : Bool) (tn : String)
    (flds : List (String × Value))
    (h : WT env (.trec tn) (.vrecord tn flds)) :
    ∃ f0 : Nat, ∀ fuel, f0 ≤ fuel →
      dataclassFromDict env fuel (.trec tn)
          (encodeVal env (.vrecord tn flds)) allowAdd
        = .ok (.vrecord tn flds) := by
  obtain ⟨f0, hf0⟩ :=
    decode_encode_WT env allowAdd (.trec tn) (.vrecord tn flds) h
  refine ⟨f0, ?_⟩
  intro fuel hf
  unfold dataclassFromDict
  rw [hf0 fuel hf]

/-- The aliased inner record of the round-trip example:
`class Inner: a: int` with alias `A`. -/
def innerRD : RecordDef := ⟨[⟨"a", some "A", .tint, none⟩], false⟩

/-- The outer record of the round-trip example: a nested record, a list,
a string-keyed mapping, and an optional. -/
def outerRD : RecordDef :=
  ⟨[⟨"inner", none, .trec "Inner", none⟩,
    ⟨"xs", none, .tlist .tint, none⟩,
    ⟨"m", none, .tdict .tint, none⟩,
    ⟨"opt", none, .tunion [.tint, .tnone], none⟩], false⟩

/-- The round-trip example environment. -/
def envRT : Env := [("Inner", innerRD), ("Outer", outerRD)]

/-- A concrete `Outer` instance exercising alias, nesting, list, mapping
and optional. -/
def vOuter : Value :=
  .vrecord "Outer"
    [("inner", .vrecord "Inner" [("a", .vint 3)]),
     ("xs", .vlist [.vint 1, .vint 2]),
     ("m", .vdict [("k", .vint 7)]),
     ("opt", .vnull)]

/-- The example instance is well-typed. -/
theorem vOuter_WT : WT envRT (.trec "Outer") vOuter := by
  show WT envRT (.trec "Outer")
    (.vrecord "Outer"
      [("inner", .vrecord "Inner" [("a", .vint 3)]),
       ("xs", .vlist [.vint 1, .vint 2]),
       ("m", .vdict [("k", .vint 7)]),
       ("opt", .vnull)])
  refine WT.wrec "Outer" outerRD _ rfl rfl rfl ?_
  intro p hp
  fin_cases hp
  · refine WT.wrec "Inner" innerRD _ rfl rfl rfl ?_
    intro q hq
    fin_cases hq
    exact WT.wint 3
  · refine WT.wlist _ _ ?_
    intro w hw
    fin_cases hw
    · exact WT.wint 1
    · exact WT.wint 2
  · refine WT.wdict _ _ ?_
    intro kv hkv
    fin_cases hkv
    exact WT.wint 7
  · exact WT.wunionNull _ rfl

/-- Witness for the amended C3: the concrete `Outer` instance round-trips
(eventually in fuel by the theorem, and concretely at fuel 10). -/
theorem c3_roundtrip_witness :
    (∃ f0 : Nat, ∀ fuel, f0 ≤ fuel →
      dataclassFromDict envRT fuel (.trec "Outer") (encodeVal envRT vOuter)
          false
        = .ok vOuter) ∧
    dataclassFromDict envRT 10 (.trec "Outer") (encodeVal envRT vOuter) false
      = .ok vOuter := by
  constructor
  · exact c3_roundtrip_amended envRT false "Outer"
      [("inner", .vrecord "Inner" [("a", .vint 3)]),
       ("xs", .vlist [.vint 1, .vint 2]),
       ("m", .vdict [("k", .vint 7)]),
       ("opt", .vnull)] vOuter_WT
  · rfl

end Eyconf
